import Mathlib

/-!
Verification of the C/C++ function extraction scanner
(src/services/code_extraction_service.py, class FunctionExtractor).

Text is modelled as `List Char` (a Python `str`), a file's lines as
`List (List Char)`.  Python integer arithmetic on indices is modelled with
`Nat`/`Int`; Python truthiness of `Optional[int]` is modelled explicitly.
-/

namespace CodeExtraction

/-- Python whitespace class for `str.strip` and the regex class `\s`
(ASCII part: space, tab, newline, carriage return, vertical tab, form feed). -/
def isPySpace (c : Char) : Bool :=
  c = ' ' ∨ c = '\t' ∨ c = '\n' ∨ c = '\r' ∨ c = '\x0b' ∨ c = '\x0c'

/-- Python `str.strip()`: drop leading and trailing whitespace. -/
def pyStrip (l : List Char) : List Char :=
  ((l.dropWhile isPySpace).reverse.dropWhile isPySpace).reverse

/-- Python `sub in s` substring test. -/
def containsSub (pat : List Char) : List Char → Bool
  | [] => pat.isEmpty
  | c :: rest => pat.isPrefixOf (c :: rest) || containsSub pat rest

/-- Python `str.split('\n')`. -/
def splitLines : List Char → List (List Char)
  | [] => [[]]
  | c :: rest =>
    if c = '\n' then [] :: splitLines rest
    else
      match splitLines rest with
      | l :: ls => (c :: l) :: ls
      | [] => [[c]]

/-- Python `'\n'.join(lines)`. -/
def joinNL (lines : List (List Char)) : List Char :=
  List.intercalate ['\n'] lines

/-!
## `_count_braces_in_text` (lines 222-263)

Counts `\x7b` as +1 and `\x7d` as -1, scanning with a string/char-literal
state machine; on `//` the scan breaks off; on `/*` just the two opener
characters are skipped (no block-comment state is entered).  The Python
loop is index-based with `i += 2` jumps; here the remaining text is the
list argument and the lookahead `text[i+1]` is the head of `rest`.
The state is (`in_string`, `in_char`, `string_char`).
-/

/-- Body of `_count_braces_in_text`: returns the brace count of the
remaining text from the given scanner state.  The Python loop reads
`text[i + 1]` behind a bounds check, so the last character is handled by
its own pattern (no lookahead available there). -/
def braceGo : List Char → Bool → Bool → Option Char → Int
  | [], _, _, _ => 0
  | c :: [], inStr, inCh, sc =>
    if (inStr || inCh) && c = '\\' then 0
    else if (c = '"' || c = '\'') && !inCh && !inStr then
      braceGo [] true inCh (some c)
    else if some c = sc && inStr then
      braceGo [] false inCh none
    else if c = '\'' && !inStr && !inCh then
      braceGo [] inStr true sc
    else if c = '\'' && inCh then
      braceGo [] inStr false sc
    else if !inStr && !inCh then
      (if c = '\x7b' then 1 else if c = '\x7d' then -1 else 0) +
        braceGo [] inStr inCh sc
    else braceGo [] inStr inCh sc
  | c :: r1 :: rrest, inStr, inCh, sc =>
    if (inStr || inCh) && c = '\\' then
      braceGo rrest inStr inCh sc
    else if (c = '"' || c = '\'') && !inCh && !inStr then
      braceGo (r1 :: rrest) true inCh (some c)
    else if some c = sc && inStr then
      braceGo (r1 :: rrest) false inCh none
    else if c = '\'' && !inStr && !inCh then
      braceGo (r1 :: rrest) inStr true sc
    else if c = '\'' && inCh then
      braceGo (r1 :: rrest) inStr false sc
    else if !inStr && !inCh then
      if c = '/' && r1 = '/' then 0
      else if c = '/' && r1 = '*' then braceGo rrest inStr inCh sc
      else (if c = '\x7b' then 1 else if c = '\x7d' then -1 else 0) +
        braceGo (r1 :: rrest) inStr inCh sc
    else braceGo (r1 :: rrest) inStr inCh sc

/-- `_count_braces_in_text(text)`. -/
def countBracesInText (text : List Char) : Int :=
  braceGo text false false none

/-- `_count_braces_in_lines(lines)`: sum of per-line counts. -/
def countBracesInLines (lines : List (List Char)) : Int :=
  (lines.map countBracesInText).sum

/-!
## `_remove_comments` (lines 90-149)

A character-by-character rewrite.  Two control-flow details are modelled
exactly as written in the Python:
* the line-comment branch skips to the `'\n'`, appends `'\n'`, and then
  `continue`s WITHOUT advancing `i`, so the newline is processed (and
  appended) a second time by the outer loop;
* the block-comment inner loop runs while `i + 1 < len(content)`, so on an
  unterminated block comment the final character is handed back to the
  outer loop and processed as ordinary code.

The recursion jumps over non-structural suffixes (`dropWhile`, the block
skip), so it is expressed with an explicit fuel parameter; each iteration
consumes at least one character, hence fuel `length + 1` is never
exhausted and the `0` branch is unreachable for `removeComments`.
-/

/-- The inner block-comment loop of `_remove_comments`: returns the
newlines it appends and the remaining text after the comment (or the at
most one character the `i + 1 < len` guard leaves for the outer loop). -/
def blockSkip : List Char → List Char × List Char
  | a :: b :: rest =>
    if a = '*' && b = '/' then ([], rest)
    else if a = '\n' then
      match blockSkip (b :: rest) with
      | (ns, r) => ('\n' :: ns, r)
    else blockSkip (b :: rest)
  | other => ([], other)

/-- Body of `_remove_comments`, with fuel. -/
def rcGoF : Nat → List Char → Bool → Bool → Option Char → List Char
  | 0, _, _, _, _ => []
  | _ + 1, [], _, _, _ => []
  | fuel + 1, c :: rest, inStr, inCh, sc =>
    if (inStr || inCh) && c = '\\' then
      match rest with
      | [] => [c]
      | r1 :: rrest => c :: r1 :: rcGoF fuel rrest inStr inCh sc
    else if (c = '"' || c = '\'') && !inCh && !inStr then
      c :: rcGoF fuel rest true inCh (some c)
    else if some c = sc && inStr then
      c :: rcGoF fuel rest false inCh none
    else if c = '\'' && !inStr && !inCh then
      c :: rcGoF fuel rest inStr true sc
    else if c = '\'' && inCh then
      c :: rcGoF fuel rest inStr false sc
    else if !inStr && !inCh then
      match rest with
      | r1 :: rrest =>
        if c = '/' && r1 = '/' then
          -- skip to the newline; if found, append it and continue WITHOUT
          -- advancing past it (the Python `continue` skips `i += 1`)
          match (c :: rest).dropWhile (fun x => ¬ x = '\n') with
          | [] => []
          | nl :: after => '\n' :: rcGoF fuel (nl :: after) inStr inCh sc
        else if c = '/' && r1 = '*' then
          match blockSkip rrest with
          | (ns, r) => ns ++ rcGoF fuel r inStr inCh sc
        else c :: rcGoF fuel rest inStr inCh sc
      | [] => c :: rcGoF fuel rest inStr inCh sc
    else c :: rcGoF fuel rest inStr inCh sc

/-- `_remove_comments(content)`. -/
def removeComments (content : List Char) : List Char :=
  rcGoF (content.length + 1) content false false none

/-- Number of newline characters in a text. -/
def countNewlines (l : List Char) : Nat :=
  (l.filter (fun c => c = '\n')).length

/-!
## `_is_function_declaration` (lines 151-173) and
## `_is_inside_string_or_macro` (lines 175-183)

The regex `rf'\b{re.escape(function_name)}\s*\('` searches for an
occurrence of the (literal, escaped) name at a word boundary, followed by
optional whitespace and an opening parenthesis.  `\b` before the name's
first character holds when exactly one of (previous character is a word
character, name's first character is a word character) is true, or at the
start of the string when the first character of the name is a word
character.  `\s*` is maximal here since it is followed by the
non-whitespace literal `(`.  Empty function names do not occur in the
repository; the search is defined to fail for an empty name.
-/

/-- `\w` character class (ASCII). -/
def isWordChar (c : Char) : Bool := c.isAlphanum || c = '_'

/-- Word-boundary test between the previous character (`none` at the
start of the string) and the first character of the name. -/
def boundaryB (prev : Option Char) (c : Char) : Bool :=
  match prev with
  | none => isWordChar c
  | some p => xor (isWordChar p) (isWordChar c)

/-- Consume an expected literal prefix. -/
def stripPre : List Char → List Char → Option (List Char)
  | [], s => some s
  | _ :: _, [] => none
  | p :: ps, c :: cs => if p = c then stripPre ps cs else none

/-- Does the pattern `name\s*\(` match at the start of `s`? -/
def fnPatternAt (name s : List Char) : Bool :=
  match stripPre name s with
  | some r =>
    match r.dropWhile isPySpace with
    | '(' :: _ => true
    | _ => false
  | none => false

/-- Search loop of `re.search(rf'\b{name}\s*\(', s)`: try the pattern at
every position, tracking the previous character for `\b`. -/
def fnSearchAux (n0 : Char) (name : List Char) : Option Char → List Char → Bool
  | prev, s =>
    (boundaryB prev n0 && fnPatternAt name s) ||
      match s with
      | [] => false
      | c :: rest => fnSearchAux n0 name (some c) rest

/-- `re.search(rf'\b{re.escape(name)}\s*\(', s) is not None`. -/
def fnSearch (name s : List Char) : Bool :=
  match name with
  | [] => false
  | n0 :: _ => fnSearchAux n0 name none s

/-- `_is_inside_string_or_macro(line, function_name)`: true when the name
occurs immediately after a `"` or a `'`, or the stripped line starts with
`#`. -/
def isInsideStringOrMacroChk (line name : List Char) : Bool :=
  containsSub ('"' :: name) line || containsSub ('\'' :: name) line ||
    (pyStrip line).head? = some '#'

/-- `lines[i]` with the Python guard `if start_idx < len(lines) else ""`. -/
def getLine (lines : List (List Char)) (i : Nat) : List Char :=
  lines.getD i []

/-- `_is_function_declaration(lines, start_idx, function_name)`. -/
def isFunctionDeclaration (lines : List (List Char)) (startIdx : Nat)
    (name : List Char) : Bool :=
  let current := pyStrip (getLine lines startIdx)
  if current = [] then false
  else if current.getLast? = some ';' then false
  else if fnSearch name current && !isInsideStringOrMacroChk current name then
    true
  else if startIdx + 1 < lines.length && !current.contains '(' then
    let next := pyStrip (getLine lines (startIdx + 1))
    let combined := current ++ ' ' :: next
    if fnSearch name combined && !isInsideStringOrMacroChk combined name &&
        !(current.getLast? = some ';') then
      true
    else false
  else false

/-!
## `_extract_complete_function` (lines 185-216)

First loop: collect lines until one CONTAINS a `\x7b` character (raw
containment, not the lexer-aware count).  If none is found, return the
collected lines joined.  Otherwise seed the depth with the lexer-aware
count of the collected lines and keep consuming lines while the depth is
positive, stopping (inclusively) at a line that brings it to zero.
-/

/-- First loop: returns (collected lines, remaining lines, brace found). -/
def collectUntilBrace : List (List Char) → List (List Char) × List (List Char) × Bool
  | [] => ([], [], false)
  | l :: rest =>
    if l.contains '\x7b' then ([l], rest, true)
    else
      match collectUntilBrace rest with
      | (acc, rem, f) => (l :: acc, rem, f)

/-- Second loop: `while i < len(lines) and brace_count > 0`. -/
def consumeLoop : Int → List (List Char) → List (List Char)
  | count, ls =>
    if count ≤ 0 then []
    else
      match ls with
      | [] => []
      | l :: rest =>
        let c := count + countBracesInText l
        if c = 0 then [l] else l :: consumeLoop c rest

/-- `_extract_complete_function(lines, start_idx, function_name)` (the
`function_name` parameter is unused in the Python body as well). -/
def extractCompleteFunction (lines : List (List Char)) (startIdx : Nat)
    (_name : List Char) : List Char :=
  match collectUntilBrace (lines.drop startIdx) with
  | (acc, rem, f) =>
    if f then joinNL (acc ++ consumeLoop (countBracesInLines acc) rem)
    else joinNL acc

/-!
## `_parse_function` (lines 67-88)

Python `min(matches, key=...)` keeps the first element attaining the
minimal key (replacement only on a strictly smaller key).
-/

/-- Python `min` with a key over a nonempty list: first minimum wins. -/
def minByFirst (key : Nat → Nat) (x : Nat) (xs : List Nat) : Nat :=
  xs.foldl (fun b y => if key y < key b then y else b) x

/-- Distance key `abs(x + 1 - line_number)` used by `_parse_function`. -/
def distKey (ln : Nat) (x : Nat) : Nat :=
  ((x : Int) + 1 - (ln : Int)).natAbs

/-- Candidate start indices of `function_name` in the split lines. -/
def matchIndices (lines : List (List Char)) (name : List Char) : List Nat :=
  (List.range lines.length).filter (fun i => isFunctionDeclaration lines i name)

/-- `_parse_function(content, function_name, line_number, remove_comments)`. -/
def parseFunction (content name : List Char) (lineNumber : Option Nat)
    (rc : Bool) : Option (List Char) :=
  let content := if rc then removeComments content else content
  let lines := splitLines content
  match matchIndices lines name with
  | [] => none
  | m0 :: mrest =>
    match lineNumber with
    | some n =>
      some (extractCompleteFunction lines (minByFirst (distKey n) m0 mrest) name)
    | none => some (extractCompleteFunction lines m0 name)

/-!
## `_verify_line_number` (lines 265-277), pure core on split lines

`range(max(0, line_number - 3), min(len(lines), line_number + 3))` ranges
over 0-based indices; `line_number` is the externally supplied 1-based
line.
-/

/-- The range scan of `_verify_line_number` over already split lines. -/
def verifyLines (lines : List (List Char)) (name : List Char) (ln : Nat) : Bool :=
  let lo := ln - 3
  let hi := min lines.length (ln + 3)
  (List.range' lo (hi - lo)).any (fun i => isFunctionDeclaration lines i name)

/-!
## Filesystem model and the search orchestrator

A source tree is a list of files in the (deterministic but otherwise
unspecified) traversal order shared by `os.walk` and `Path.rglob`.  Each
file records its subdirectory components under the source root, its base
name, whether opening it succeeds (`open` raises `PermissionError` for an
unreadable file; `errors='ignore'` means `UnicodeDecodeError` cannot
occur), and its content.
-/

/-- A file of the modelled source tree. -/
structure SrcFile where
  dirs : List String
  base : String
  readable : Bool
  content : List Char
deriving DecidableEq

/-- Raised Python exceptions relevant to the scanner. -/
inductive ScanErr where
  | notFound
  | unreadable
deriving DecidableEq

/-- `Path.suffix` of a base name, per pathlib: the part from the last
dot, nonempty only when that dot is neither the first nor the last
character. -/
def pathSuffix (b : List Char) : List Char :=
  match b.reverse.findIdx? (fun c => c = '.') with
  | none => []
  | some k =>
    let i := b.length - 1 - k
    if 0 < i ∧ i < b.length - 1 then b.drop i else []

/-- The fixed extension set `{'.c', '.cpp', '.cc', '.cxx', '.h', '.hpp', '.hxx'}`,
compared against `Path.suffix.lower()`. -/
def hasCExt (b : List Char) : Bool :=
  [ ".c".data, ".cpp".data, ".cc".data, ".cxx".data,
    ".h".data, ".hpp".data, ".hxx".data ].contains
    ((pathSuffix b).map Char.toLower)

/-- `_get_all_source_files`: all files whose suffix is a recognized
C/C++ extension, in traversal order. -/
def getAllSourceFiles (fs : List SrcFile) : List SrcFile :=
  fs.filter (fun f => hasCExt f.base.data)

/-- `_extract_from_file`: open (may raise), then parse. -/
def extractFromFile (f : SrcFile) (name : List Char) (ln : Option Nat)
    (rc : Bool) : Except ScanErr (Option (List Char)) :=
  if f.readable then .ok (parseFunction f.content name ln rc)
  else .error .unreadable

/-- `_verify_line_number` on a file: open (may raise), split, scan. -/
def verifyLineNumber (f : SrcFile) (name : List Char) (ln : Nat) :
    Except ScanErr Bool :=
  if f.readable then .ok (verifyLines (splitLines f.content) name ln)
  else .error .unreadable

/-- The match-collection loop of `_extract_from_directory`:
`UnicodeDecodeError`/`PermissionError` make the loop `continue`, a `None`
result contributes nothing. -/
def collectMatches (files : List SrcFile) (name : List Char) (ln : Option Nat)
    (rc : Bool) : List (SrcFile × List Char) :=
  files.foldl (fun acc f =>
    match extractFromFile f name ln rc with
    | .error .unreadable => acc
    | .error _ => acc
    | .ok none => acc
    | .ok (some r) => acc ++ [(f, r)]) []

/-- The disambiguation loop of `_extract_from_directory` (lines 51-54):
return the code of the first match whose file verifies the line number;
exceptions raised by `_verify_line_number` here are NOT caught. -/
def verifyFirst (ms : List (SrcFile × List Char)) (name : List Char)
    (ln : Nat) : Except ScanErr (Option (List Char)) :=
  match ms with
  | [] => .ok none
  | (f, code) :: rest => do
    let v ← verifyLineNumber f name ln
    if v then .ok (some code) else verifyFirst rest name ln

/-- `_extract_from_directory(function_name, line_number, remove_comments)`.
`if line_number:` is Python truthiness: `None` and `0` both fail it. -/
def extractFromDirectory (fs : List SrcFile) (name : List Char)
    (ln : Option Nat) (rc : Bool) : Except ScanErr (Option (List Char)) :=
  let ms := collectMatches (getAllSourceFiles fs) name ln rc
  match ms with
  | [] => .ok none
  | [m] => .ok (some m.2)
  | m0 :: m1 :: rest =>
    match ln with
    | some n =>
      if n ≠ 0 then do
        match ← verifyFirst (m0 :: m1 :: rest) name n with
        | some code => .ok (some code)
        | none => .ok (some m0.2)
      else .ok (some m0.2)
    | none => .ok (some m0.2)

/-- `extract_function(function_name, file_name, line_number, remove_comments)`.
With a file name, `os.walk` finds the first directory containing a file of
that base name — anywhere under the root, regardless of extension — and
raises `FileNotFoundError` when there is none. -/
def extractFunction (fs : List SrcFile) (name : List Char)
    (fileName : Option String) (ln : Option Nat) (rc : Bool) :
    Except ScanErr (Option (List Char)) :=
  match fileName with
  | some fn =>
    match fs.find? (fun f => f.base = fn) with
    | some f => extractFromFile f name ln rc
    | none => .error .notFound
  | none => extractFromDirectory fs name ln rc

/-!
## `_list_functions_in_file` (lines 310-341)

`re.finditer` with the verbose multiline pattern

  `(?:^|\n)\s*(?:static\s+|extern\s+|inline\s+)*`
  `(\w+(?:\s*\*+\s*|\s+))(\w+)\s*\(([^\x7b;]*)\)\s*(?=\x7b)`

is specialized to a matcher.  Backtracking collapses to determinism in
all places but two, which are kept explicitly:
* the greedy specifier loop `(?:static\s+|extern\s+|inline\s+)*` retries
  with fewer iterations when the rest of the pattern fails (regex
  preference order: more iterations first) — e.g. in `static x(...)` the
  word `static` is re-parsed as the return type;
* the greedy `[^\x7b;]*` prefers the longest parameter run, i.e. the
  latest viable closing parenthesis.

Everywhere else a greedy `\s*`/`\s+`/`\w+`/`\*+` is followed by a token
disjoint from its own class, so shorter tries always fail and maximal
munch is exact.  `\s` matches newlines, so a return type, name and
parameter list may span lines.  With `re.MULTILINE`, `^` matches at the
start and after each `'\n'`.
-/

/-- One storage specifier `static\s+|extern\s+|inline\s+`. -/
def trySpec1 (kw : List Char) (s : List Char) : Option (List Char) :=
  match stripPre kw s with
  | some r =>
    match r with
    | c :: _ => if isPySpace c then some (r.dropWhile isPySpace) else none
    | [] => none
  | none => none

/-- The specifier alternation, in the pattern's order. -/
def trySpec (s : List Char) : Option (List Char) :=
  (trySpec1 "static".data s).orElse fun _ =>
    (trySpec1 "extern".data s).orElse fun _ => trySpec1 "inline".data s

/-- Remainders after 0, 1, 2, ... specifier iterations, most first
(the regex preference for a greedy `*`), with fuel (each specifier
consumes at least seven characters). -/
def specRemsF : Nat → List Char → List (List Char)
  | 0, s => [s]
  | fuel + 1, s =>
    match trySpec s with
    | some s' => specRemsF fuel s' ++ [s]
    | none => [s]

/-- Group 1's tail `(?:\s*\*+\s*|\s+)`: the first alternative needs at
least one star; when it applies the second cannot lead anywhere (the
next token is `\w+` and the remainder would start at a star). -/
def parseSep (s : List Char) : Option (List Char) :=
  let r1 := s.dropWhile isPySpace
  let r2 := r1.dropWhile (fun c => c = '*')
  if r1.length ≠ r2.length then some (r2.dropWhile isPySpace)
  else if s.length ≠ r1.length then some r1
  else none

/-- `([^\x7b;]*)\)\s*(?=\x7b)`: group 3 is greedy, so the latest viable
closing parenthesis wins; after `\)` maximal whitespace must be followed
by a `\x7b` (kept unconsumed).  Returns (params, whitespace after the
parenthesis, rest of the text starting at the brace). -/
def paramSearch : List Char → Option (List Char × List Char × List Char)
  | [] => none
  | c :: rest =>
    if c = '\x7b' ∨ c = ';' then none
    else
      match paramSearch rest with
      | some (ps, ws, r) => some (c :: ps, ws, r)
      | none =>
        if c = ')' then
          if (rest.dropWhile isPySpace).head? = some '\x7b' then
            some ([], rest.takeWhile isPySpace, rest.dropWhile isPySpace)
          else none
        else none

/-- The pattern after `(?:^|\n)`: whitespace, specifiers (with the
backtracking over their count), return type, separator, name, `\s*\(`,
parameters.  Returns (name, params, whitespace consumed after `\)`,
rest of the text starting at the lookahead brace). -/
def matchCore (s : List Char) : Option (List Char × List Char × List Char × List Char) :=
  let s1 := s.dropWhile isPySpace
  (specRemsF (s1.length + 1) s1).findSome? fun rem =>
    let rt := rem.takeWhile isWordChar
    if rt = [] then none
    else
      match parseSep (rem.dropWhile isWordChar) with
      | none => none
      | some r2 =>
        let nm := r2.takeWhile isWordChar
        if nm = [] then none
        else
          let r4 := (r2.dropWhile isWordChar).dropWhile isPySpace
          if r4.head? = some '(' then
            match paramSearch r4.tail with
            | some (ps, ws, rest) => some (nm, ps, ws, rest)
            | none => none
          else none

/-- The `re.finditer` scan: at each position try `^` (allowed at the
start of the text and right after a newline), then the `\n` branch; on
failure advance one character; after a match continue at its end.  `bol`
records whether the previous character was a newline (or there is none).
Fuel: every step consumes at least one character. -/
def finditerF : Nat → Bool → List Char → List (List Char × List Char)
  | 0, _, _ => []
  | fuel + 1, bol, s =>
    match (if bol then matchCore s else none) with
    | some (nm, ps, ws, rest) =>
      (nm, ps) :: finditerF fuel (ws.getLast? = some '\n') rest
    | none =>
      match s with
      | [] => []
      | c :: rest0 =>
        if c = '\n' then
          match matchCore rest0 with
          | some (nm, ps, ws, rest) =>
            (nm, ps) :: finditerF fuel (ws.getLast? = some '\n') rest
          | none => finditerF fuel true rest0
        else finditerF fuel (c = '\n') rest0

/-- `_list_functions_in_file(filepath, remove_comments)` on already read
content: the produced entries are `(group(2).strip(), f"{name}({params})")`
with stripped parameters (an empty parameter list also yields
`name()`). -/
def listFunctionsInFile (content : List Char) (rc : Bool) :
    List (List Char × List Char) :=
  let content := if rc then removeComments content else content
  (finditerF (content.length + 1) true content).map fun m =>
    (pyStrip m.1, pyStrip m.1 ++ '(' :: pyStrip m.2 ++ [')'])

/-- `list_all_functions(file_name, remove_comments)`.  With a file name,
only the DIRECT child `src_dir / file_name` is considered; when it does
not exist the accumulator stays empty and no error is raised.  Opening
the direct child is not guarded by try/except, so an unreadable file
raises.  The tree-wide branch skips unreadable files. -/
def listAllFunctions (fs : List SrcFile) (fileName : Option String)
    (rc : Bool) : Except ScanErr (List (List Char × List Char × SrcFile)) :=
  match fileName with
  | some fn =>
    match fs.find? (fun f => f.dirs = [] ∧ f.base = fn) with
    | some f =>
      if f.readable then
        .ok ((listFunctionsInFile f.content rc).map fun e => (e.1, e.2, f))
      else .error .unreadable
    | none => .ok []
  | none =>
    .ok ((getAllSourceFiles fs).foldl (fun acc f =>
      if f.readable then
        acc ++ ((listFunctionsInFile f.content rc).map fun e => (e.1, e.2, f))
      else acc) [])

/-- Python `file.readlines()`: split keeping the line terminators. -/
def pyReadLines : List Char → List (List Char)
  | [] => []
  | c :: rest =>
    match pyReadLines rest with
    | [] => [[c]]
    | l :: ls => if c = '\n' then [c] :: l :: ls else (c :: l) :: ls

/-- `find_function_locations(function_name)`: tree-wide, skipping
unreadable files, reporting 1-based line numbers in order. -/
def findFunctionLocations (fs : List SrcFile) (name : List Char) :
    List (SrcFile × Nat) :=
  (getAllSourceFiles fs).foldl (fun acc f =>
    if f.readable then
      let lines := pyReadLines f.content
      acc ++ ((List.range lines.length).filter
        (fun i => isFunctionDeclaration lines i name)).map (fun i => (f, i + 1))
    else acc) []

/-!
## Analysis-side definitions

`cleanScan` singles out the texts over which the brace counter composes:
scanning never ends inside a literal, never breaks on `//`, and never has
a lookahead or escape skip reach past the end of the text.  `stopSpec`
restates the stopping rule of `_extract_complete_function` in one pass,
to compare against the two-loop source shape.
-/

/-- Does `braceGo` scan this text completely and boundary-independently,
ending back in code state?  The state is `none` (code) or `some q`
(inside a literal opened by `q`). -/
def cleanScan : Option Char → List Char → Bool
  | none, [] => true
  | some _, [] => false
  | none, c :: [] =>
    if c = '"' ∨ c = '\'' then cleanScan (some c) []
    else if c = '/' then false
    else cleanScan none []
  | none, c :: r1 :: rrest =>
    if c = '"' ∨ c = '\'' then cleanScan (some c) (r1 :: rrest)
    else if c = '/' then
      if r1 = '/' then false
      else if r1 = '*' then cleanScan none rrest
      else cleanScan none (r1 :: rrest)
    else cleanScan none (r1 :: rrest)
  | some q, c :: [] =>
    if c = '\\' then false
    else if c = q then cleanScan none []
    else cleanScan (some q) []
  | some q, c :: r1 :: rrest =>
    if c = '\\' then cleanScan (some q) rrest
    else if c = q then cleanScan none (r1 :: rrest)
    else cleanScan (some q) (r1 :: rrest)

/-- One-pass restatement of the stopping rule of
`_extract_complete_function`: keep lines, and stop inclusively at the
first line at which some line so far contained a raw `\x7b` AND the
cumulative lexer-aware count has become zero or negative. -/
def stopSpec : Int → Bool → List (List Char) → List (List Char)
  | _, _, [] => []
  | cum, seen, l :: rest =>
    let seen' := seen || l.contains '\x7b'
    let cum' := cum + countBracesInText l
    if seen' ∧ cum' ≤ 0 then [l] else l :: stopSpec cum' seen' rest

end CodeExtraction

namespace CodeExtraction

/-! ## Helper lemmas -/

theorem containsSub_of_isPrefixOf {p l : List Char} (h : p.isPrefixOf l) :
    containsSub p l = true := by
  cases l with
  | nil =>
    have : p = [] := by
      cases p with
      | nil => rfl
      | cons a t => simp [List.isPrefixOf] at h
    simp [containsSub, this, List.isEmpty]
  | cons c rest => simp [containsSub, h]

theorem containsSub_append_right {p l : List Char} (l' : List Char)
    (h : containsSub p l = true) : containsSub p (l ++ l') = true := by
  induction l with
  | nil =>
    have hp : p = [] := by
      cases p with
      | nil => rfl
      | cons a t => simp [containsSub, List.isEmpty] at h
    subst hp
    cases l' with
    | nil => simp [containsSub, List.isEmpty]
    | cons c rest => simp [containsSub, List.isPrefixOf]
  | cons c rest ih =>
    simp only [containsSub, Bool.or_eq_true] at h
    rcases h with h | h
    · have : p <+: (c :: rest) := List.isPrefixOf_iff_prefix.mp h
      have : p.isPrefixOf ((c :: rest) ++ l') := by
        exact List.isPrefixOf_iff_prefix.mpr (this.trans (List.prefix_append _ _))
      simpa [containsSub] using Or.inl this
    · have := ih h
      simp only [List.cons_append, containsSub, Bool.or_eq_true]
      exact Or.inr this

theorem mem_of_containsSub {a : Char} {p l : List Char}
    (h : containsSub (a :: p) l = true) : a ∈ l := by
  induction l with
  | nil => simp [containsSub, List.isEmpty] at h
  | cons c rest ih =>
    simp only [containsSub, Bool.or_eq_true] at h
    rcases h with h | h
    · have := List.isPrefixOf_iff_prefix.mp h
      rcases this with ⟨t, ht⟩
      simp only [List.cons_append] at ht
      rw [← ht]
      exact List.mem_cons_self _ _
    · exact List.mem_cons_of_mem _ (ih h)

theorem stripPre_eq_some {p : List Char} : ∀ {s r : List Char},
    stripPre p s = some r → s = p ++ r := by
  induction p with
  | nil =>
    intro s r h
    simp only [stripPre, Option.some.injEq] at h
    simpa using h
  | cons a t ih =>
    intro s r h
    cases s with
    | nil => simp [stripPre] at h
    | cons c cs =>
      by_cases hac : a = c
      · subst hac
        simp only [stripPre, if_pos rfl] at h
        simpa using ih h
      · simp [stripPre, hac] at h

theorem stripPre_self (p r : List Char) : stripPre p (p ++ r) = some r := by
  induction p with
  | nil => simp [stripPre]
  | cons a t ih => simpa [stripPre] using ih

/-- A successful name-pattern search implies the name occurs as a
substring. -/
theorem containsSub_of_fnSearchAux {n0 : Char} {name : List Char} :
    ∀ {prev : Option Char} {s : List Char},
    fnSearchAux n0 name prev s = true → containsSub name s = true := by
  intro prev s
  induction s generalizing prev with
  | nil =>
    intro h
    simp only [fnSearchAux, Bool.or_eq_true, Bool.and_eq_true] at h
    rcases h with ⟨_, hpat⟩ | h
    · unfold fnPatternAt at hpat
      cases hsp : stripPre name [] with
      | none => rw [hsp] at hpat; simp at hpat
      | some r =>
        have := stripPre_eq_some hsp
        have : name = [] ∧ r = [] := by
          constructor
          · cases name with
            | nil => rfl
            | cons a t => simp at this
          · cases name with
            | nil => simpa using this
            | cons a t => simp at this
        rcases this with ⟨h1, h2⟩
        subst h1; subst h2
        simp [fnPatternAt, stripPre, List.dropWhile] at hpat
    · simp at h
  | cons c rest ih =>
    intro h
    simp only [fnSearchAux, Bool.or_eq_true, Bool.and_eq_true] at h
    rcases h with ⟨_, hpat⟩ | h
    · unfold fnPatternAt at hpat
      cases hsp : stripPre name (c :: rest) with
      | none => rw [hsp] at hpat; simp at hpat
      | some r =>
        have hdec := stripPre_eq_some hsp
        have : name.isPrefixOf (c :: rest) := by
          exact List.isPrefixOf_iff_prefix.mpr ⟨r, hdec.symm⟩
        exact containsSub_of_isPrefixOf this
    · simp only [containsSub, Bool.or_eq_true]
      exact Or.inr (ih h)

theorem containsSub_of_fnSearch {name s : List Char}
    (h : fnSearch name s = true) : containsSub name s = true := by
  cases name with
  | nil => simp [fnSearch] at h
  | cons n0 nt => exact containsSub_of_fnSearchAux h

/-! ## Claim theorems -/

/-- C2: the claim says `_remove_comments` preserves the newline count of
every input.  The code violates it: the line-comment branch appends a
`'\n'` and then `continue`s without advancing the index, so the outer
loop appends the same newline once more.  On `"x//c\ny"` (one newline)
the result is `"x\n\ny"` (two newlines), shifting every following line
number down by one — contradicting both the round-trip intent and the
block-comment branch, which carefully preserves the count. -/
theorem removeComments_newline_bug :
    removeComments "x//c\ny".data = "x\n\ny".data ∧
    countNewlines "x//c\ny".data = 1 ∧
    countNewlines (removeComments "x//c\ny".data) = 2 := by
  refine ⟨by decide, by decide, by decide⟩

/-- C1 counterexample: braces inside a BLOCK comment do change the count
of `_count_braces_in_text`: the scanner only skips the two opener
characters `/*` and never enters a block-comment state, so the `\x7d`
inside `"int x; /* \x7d */"` is counted while the comment-free
`"int x; "` counts zero. -/
theorem countBraces_block_comment_counterexample :
    countBracesInText "int x; /* \x7d */".data = -1 ∧
    countBracesInText "int x; ".data = 0 := by
  refine ⟨by decide, by decide⟩

/-- C4 counterexample: a line (without trailing `;`) in which `foo(`
occurs ONLY inside a string literal is accepted by the Boundary
Detector, because `_is_inside_string_or_macro` only checks for the name
directly after a quote character; here the quote is followed by `call`,
not `foo`, so the false-positive filter does not fire. -/
theorem boundary_string_false_positive :
    isFunctionDeclaration [ "x = \"call foo() now\"".data ] 0 "foo".data = true ∧
    isInsideStringOrMacroChk "x = \"call foo() now\"".data "foo".data = false := by
  refine ⟨by decide, by decide⟩

/-- C5 counterexample: with lines `["void f() \x7b", "\x7d\x7d", "trailing"]`
the depth goes 1, then -1 — it never returns to EXACTLY zero — yet the
Brace Matcher stops at the second line instead of accumulating through
the last line as the claim requires; the loop condition `brace_count > 0`
also stops on a negative count. -/
theorem extractComplete_negative_stop_counterexample :
    extractCompleteFunction
      [ "void f() \x7b".data, "\x7d\x7d".data, "trailing".data ] 0 "f".data =
      "void f() \x7b\n\x7d\x7d".data ∧
    countBracesInText "void f() \x7b".data = 1 ∧
    countBracesInText "\x7d\x7d".data = -2 ∧
    extractCompleteFunction
      [ "void f() \x7b".data, "\x7d\x7d".data, "trailing".data ] 0 "f".data ≠
      joinNL [ "void f() \x7b".data, "\x7d\x7d".data, "trailing".data ] := by
  refine ⟨by decide, by decide, by decide, by decide⟩

/-- C7 counterexample: the Signature Lister misses a definition whose
signature does not begin at the start of a line: in
`"int x; void g(int y) \x7b\x7d"` the parameter list of `g` contains
neither `\x7b` nor `;` and is followed by an opening brace, yet nothing
is returned, because the pattern is anchored with `(?:^|\n)`.  The same
signature IS returned when it starts a line. -/
theorem listFunctions_anchoring_counterexample :
    listFunctionsInFile "int x; void g(int y) \x7b\x7d".data false = [] ∧
    listFunctionsInFile "void g(int y) \x7b\x7d".data false =
      [ ("g".data, "g(int y)".data) ] := by
  refine ⟨by decide, by decide⟩

/-- C8 counterexample: `list_all_functions` with an explicit file name
neither searches the whole tree nor raises: for a tree whose only file
`a.c` lives in a subdirectory it returns the empty list (the file would
contribute an entry if it were located, and `extract_function` does find
it anywhere under the root); for a missing name `b.c` it also returns
the empty list instead of a NotFound error. -/
theorem listAllFunctions_direct_child_counterexample :
    listAllFunctions
      [ ⟨[ "sub" ], "a.c", true, "int g(int y) \x7b\n\x7d".data⟩ ]
      (some "a.c") false = .ok [] ∧
    listFunctionsInFile "int g(int y) \x7b\n\x7d".data false =
      [ ("g".data, "g(int y)".data) ] ∧
    extractFunction
      [ ⟨[ "sub" ], "a.c", true, "int g(int y) \x7b\n\x7d".data⟩ ]
      "g".data (some "a.c") none false =
      .ok (some "int g(int y) \x7b\n\x7d".data) ∧
    listAllFunctions
      [ ⟨[ "sub" ], "a.c", true, "int g(int y) \x7b\n\x7d".data⟩ ]
      (some "b.c") false = .ok [] := by
  refine ⟨by rfl, by decide, by rfl, by rfl⟩

/-- C3 counterexample: the verification window is NOT the symmetric
1-based `line_number - 3 .. line_number + 3`.  `range(max(0, ln - 3),
min(len, ln + 3))` ranges over 0-BASED indices, i.e. 1-based lines
`ln - 2 .. ln + 3`.  File `b.c` declares `foo` at 1-based line 1 = 4 - 3
(distance exactly 3), inside the claimed window, yet
`_verify_line_number` reports false for it; consequently the tree-wide
extraction with `line_number = 4` falls back to the first match (file
`a.c`, whose declaration at line 12 is far outside every window) instead
of selecting the `b.c` match as the claim requires. -/
theorem verify_window_counterexample :
    isFunctionDeclaration (splitLines "void foo() \x7b\n  b();\n\x7d".data)
      0 "foo".data = true ∧
    verifyLines (splitLines "void foo() \x7b\n  b();\n\x7d".data)
      "foo".data 4 = false ∧
    extractFromDirectory
      [ ⟨[], "a.c", true,
          "\n\n\n\n\n\n\n\n\n\n\nvoid foo() \x7b\n  a();\n\x7d".data⟩,
        ⟨[], "b.c", true, "void foo() \x7b\n  b();\n\x7d".data⟩ ]
      "foo".data (some 4) false =
      .ok (some "void foo() \x7b\n  a();\n\x7d".data) := by
  refine ⟨by decide, by decide, by rfl⟩

theorem consumeLoop_of_nonpos {cum : Int} (h : cum ≤ 0)
    (ls : List (List Char)) : consumeLoop cum ls = [] := by
  unfold consumeLoop
  simp [h]

theorem stopSpec_true_eq_consumeLoop :
    ∀ (rem : List (List Char)) (cum : Int), 0 < cum →
    stopSpec cum true rem = consumeLoop cum rem := by
  intro rem
  induction rem with
  | nil =>
    intro cum h
    unfold consumeLoop
    simp [stopSpec]
  | cons l rest ih =>
    intro cum h
    have hle : ¬ cum ≤ 0 := by omega
    by_cases hc : cum + countBracesInText l ≤ 0
    · by_cases hz : cum + countBracesInText l = 0
      · unfold consumeLoop
        simp [stopSpec, hle, hz, hc]
      · unfold consumeLoop
        simp [stopSpec, hle, hz, hc, consumeLoop_of_nonpos hc]
    · have hz : ¬ cum + countBracesInText l = 0 := by omega
      have hpos : (0 : Int) < cum + countBracesInText l := by omega
      unfold consumeLoop
      simp [stopSpec, hle, hz, hc, ih (cum + countBracesInText l) hpos]

theorem collect_consume_eq_stopSpec :
    ∀ (tail : List (List Char)) (cum : Int),
    (match collectUntilBrace tail with
     | (acc, rem, f) =>
       if f then acc ++ consumeLoop (cum + countBracesInLines acc) rem
       else acc) = stopSpec cum false tail := by
  intro tail
  induction tail with
  | nil =>
    intro cum
    simp [collectUntilBrace, stopSpec]
  | cons l rest ih =>
    intro cum
    by_cases hb : '\x7b' ∈ l
    · have hbb : l.contains '\x7b' = true := by simpa using hb
      simp only [collectUntilBrace, hbb, if_pos, countBracesInLines, List.map_cons,
        List.map_nil, List.sum_cons, List.sum_nil, add_zero]
      by_cases hc : cum + countBracesInText l ≤ 0
      · simp [stopSpec, hb, hbb, hc, consumeLoop_of_nonpos hc]
      · have hpos : (0 : Int) < cum + countBracesInText l := by omega
        simp [stopSpec, hb, hbb, hc,
          stopSpec_true_eq_consumeLoop rest (cum + countBracesInText l) hpos]
    · have hbb : l.contains '\x7b' = false := by simpa using hb
      have hrec := ih (cum + countBracesInText l)
      have hrhs : stopSpec cum false (l :: rest) =
          l :: stopSpec (cum + countBracesInText l) false rest := by
        simp [stopSpec, hb, hbb]
      rw [hrhs]
      simp only [collectUntilBrace, hbb, Bool.false_eq_true, if_false]
      cases hcb : collectUntilBrace rest with
      | mk acc rf =>
        cases rf with
        | mk rem f =>
          rw [hcb] at hrec
          simp only at hrec
          rw [← hrec]
          by_cases hf : f
          · subst hf
            simp [countBracesInLines, add_assoc]
          · simp only [Bool.not_eq_true] at hf
            subst hf
            simp

/-- C5 (amended): `_extract_complete_function` returns exactly the lines
from the start index through the first line at which (a) some line so
far contains a raw `\x7b` character and (b) the cumulative lexer-aware
brace count over the returned lines is zero or NEGATIVE — inclusive of
that line; if no such line exists (in particular when no `\x7b` is ever
found, or when the depth stays positive to the end of input) it returns
all lines from the start index through the last line, and it is a total
function (never an error). -/
theorem extractCompleteFunction_stop_rule
    (lines : List (List Char)) (startIdx : Nat) (name : List Char) :
    extractCompleteFunction lines startIdx name =
      joinNL (stopSpec 0 false (lines.drop startIdx)) := by
  unfold extractCompleteFunction
  have h := collect_consume_eq_stopSpec (lines.drop startIdx) 0
  cases hcb : collectUntilBrace (lines.drop startIdx) with
  | mk acc rf =>
    cases rf with
    | mk rem f =>
      rw [hcb] at h
      simp only at h
      rw [← h]
      by_cases hf : f
      · subst hf
        simp
      · simp only [Bool.not_eq_true] at hf
        subst hf
        simp

theorem minByFirst_mem (key : Nat → Nat) :
    ∀ (xs : List Nat) (x : Nat), minByFirst key x xs ∈ x :: xs := by
  intro xs
  induction xs with
  | nil => intro x; simp [minByFirst]
  | cons y ys ih =>
    intro x
    have step : minByFirst key x (y :: ys) =
        minByFirst key (if key y < key x then y else x) ys := by
      simp [minByFirst]
    rw [step]
    have h := ih (if key y < key x then y else x)
    rcases List.mem_cons.mp h with h | h
    · rw [h]
      by_cases hk : key y < key x
      · simp [hk]
      · simp [hk]
    · exact List.mem_cons_of_mem _ (List.mem_cons_of_mem _ h)

theorem minByFirst_le (key : Nat → Nat) :
    ∀ (xs : List Nat) (x y : Nat), y ∈ x :: xs →
    key (minByFirst key x xs) ≤ key y := by
  intro xs
  induction xs with
  | nil =>
    intro x y hy
    have : y = x := by simpa using hy
    subst this
    simp [minByFirst]
  | cons z zs ih =>
    intro x y hy
    have step : minByFirst key x (z :: zs) =
        minByFirst key (if key z < key x then z else x) zs := by
      simp [minByFirst]
    rw [step]
    have hhead : key (if key z < key x then z else x) ≤ key x ∧
        key (if key z < key x then z else x) ≤ key z := by
      by_cases hk : key z < key x
      · simp [hk]; omega
      · simp [hk]; omega
    rcases List.mem_cons.mp hy with h | h
    · subst h
      exact le_trans
        (ih _ _ (List.mem_cons_self _ _)) hhead.1
    · rcases List.mem_cons.mp h with h | h
      · subst h
        exact le_trans (ih _ _ (List.mem_cons_self _ _)) hhead.2
      · exact ih _ _ (List.mem_cons_of_mem _ h)

/-- C10: within a single file, when a target line number is supplied and
at least one candidate start exists, `_parse_function` extracts from the
candidate whose 1-based start line minimizes the absolute distance to
the given line number (`min` with key `abs(x + 1 - line_number)`), with
no bound on that distance: the result is always `some`, never a
not-found. -/
theorem parseFunction_closest_match (content name : List Char) (ln : Nat)
    (rc : Bool)
    (h : matchIndices (splitLines (if rc then removeComments content
      else content)) name ≠ []) :
    ∃ best ∈ matchIndices (splitLines (if rc then removeComments content
        else content)) name,
      (∀ m ∈ matchIndices (splitLines (if rc then removeComments content
          else content)) name, distKey ln best ≤ distKey ln m) ∧
      parseFunction content name (some ln) rc =
        some (extractCompleteFunction
          (splitLines (if rc then removeComments content else content))
          best name) := by
  cases hm : matchIndices (splitLines (if rc then removeComments content
      else content)) name with
  | nil => exact absurd hm h
  | cons m0 mrest =>
    refine ⟨minByFirst (distKey ln) m0 mrest, ?_, ?_, ?_⟩
    · exact minByFirst_mem _ _ _
    · intro m hmem
      exact minByFirst_le _ _ _ _ hmem
    · unfold parseFunction
      simp only [hm]

/-- C10 witness: the only candidate for `foo` starts at line 1, the
requested line 1000 is arbitrarily far away, and the function is still
extracted. -/
theorem parseFunction_closest_match_witness :
    parseFunction "void foo() \x7b\x7d".data "foo".data (some 1000) false ≠
      none := by
  obtain ⟨best, _, _, heq⟩ := parseFunction_closest_match
    "void foo() \x7b\x7d".data "foo".data 1000 false (by decide)
  rw [heq]
  simp

theorem head?_dropWhile_false {p : Char → Bool} :
    ∀ {l : List Char} {c : Char}, (l.dropWhile p).head? = some c →
    p c = false := by
  intro l
  induction l with
  | nil => intro c h; simp [List.dropWhile] at h
  | cons a t ih =>
    intro c h
    by_cases hp : p a
    · rw [List.dropWhile_cons, if_pos hp] at h
      exact ih h
    · rw [List.dropWhile_cons, if_neg hp] at h
      simp only [List.head?_cons, Option.some.injEq] at h
      rw [← h]
      exact Bool.eq_false_iff.mpr hp

theorem stripTrailing_head {c : Char} {t : List Char}
    (h : isPySpace c = false) :
    ((((c :: t).reverse).dropWhile isPySpace).reverse).head? = some c := by
  rw [List.reverse_cons, List.dropWhile_append]
  by_cases he : ((t.reverse).dropWhile isPySpace).isEmpty
  · simp [he, List.dropWhile, h]
  · simp [he, h]

/-- The head of a stripped text is the head after removing leading
whitespace: a non-space head survives the trailing strip. -/
theorem pyStrip_head (l : List Char) :
    (pyStrip l).head? = (l.dropWhile isPySpace).head? := by
  unfold pyStrip
  cases hX : l.dropWhile isPySpace with
  | nil => simp
  | cons c t =>
    have hc : isPySpace c = false := by
      have : ((l.dropWhile isPySpace).head? = some c) := by rw [hX]; rfl
      exact head?_dropWhile_false this
    rw [stripTrailing_head hc]
    rfl

/-- C4 (amended): the Boundary Detector rejects every line that (after
stripping) starts with `#`, and rejects every candidate in which the
function name occurs IMMEDIATELY after a `"` or a `'` character.  (As
the counterexample shows, a name inside a string literal that is not
directly preceded by the quote character is NOT rejected; the
string-literal filter is only this quote-prefix check.) -/
theorem boundary_rejections :
    (∀ (lines : List (List Char)) (i : Nat) (name : List Char),
      (pyStrip (getLine lines i)).head? = some '#' →
      isFunctionDeclaration lines i name = false) ∧
    (∀ (lines : List (List Char)) (i : Nat) (name : List Char),
      containsSub ('"' :: name) (pyStrip (getLine lines i)) = true ∨
      containsSub ('\'' :: name) (pyStrip (getLine lines i)) = true →
      isFunctionDeclaration lines i name = false) := by
  constructor
  · intro lines i name h
    have hne : pyStrip (getLine lines i) ≠ [] := by
      intro hnil
      rw [hnil] at h
      simp at h
    have hhash : isPySpace '#' = false := by decide
    obtain ⟨t, ht⟩ : ∃ t, pyStrip (getLine lines i) = '#' :: t := by
      cases hc : pyStrip (getLine lines i) with
      | nil => exact absurd hc hne
      | cons a t =>
        rw [hc] at h
        simp only [List.head?_cons, Option.some.injEq] at h
        exact ⟨t, by rw [← h]⟩
    have hin : isInsideStringOrMacroChk (pyStrip (getLine lines i)) name
        = true := by
      unfold isInsideStringOrMacroChk
      have : (pyStrip (pyStrip (getLine lines i))).head? = some '#' := by
        rw [pyStrip_head, ht]
        simp [List.dropWhile, hhash]
      simp [this]
    have hin2 : isInsideStringOrMacroChk
        (pyStrip (getLine lines i) ++ ' ' :: pyStrip (getLine lines (i + 1)))
        name = true := by
      unfold isInsideStringOrMacroChk
      have : (pyStrip (pyStrip (getLine lines i) ++ ' ' ::
          pyStrip (getLine lines (i + 1)))).head? = some '#' := by
        rw [pyStrip_head, ht]
        simp [List.dropWhile, hhash]
      simp [this]
    unfold isFunctionDeclaration
    simp [hin, hin2]
  · intro lines i name h
    have hin : isInsideStringOrMacroChk (pyStrip (getLine lines i)) name
        = true := by
      unfold isInsideStringOrMacroChk
      rcases h with h | h
      · simp [h]
      · simp [h]
    have hin2 : isInsideStringOrMacroChk
        (pyStrip (getLine lines i) ++ ' ' :: pyStrip (getLine lines (i + 1)))
        name = true := by
      unfold isInsideStringOrMacroChk
      rcases h with h | h
      · simp [containsSub_append_right _ h]
      · simp [containsSub_append_right _ h]
    unfold isFunctionDeclaration
    simp [hin, hin2]

/-- C4 witness: a preprocessor line and a quote-prefixed occurrence are
both rejected, through the amended rejection theorem. -/
theorem boundary_rejections_witness :
    isFunctionDeclaration [ "  #define foo(x) x".data ] 0 "foo".data
      = false ∧
    isFunctionDeclaration [ "x = \"foo() now\"".data ] 0 "foo".data
      = false :=
  ⟨boundary_rejections.1 [ "  #define foo(x) x".data ] 0 "foo".data
      (by decide),
    boundary_rejections.2 [ "x = \"foo() now\"".data ] 0 "foo".data
      (Or.inl (by decide))⟩

theorem collectMatches_readable {files : List SrcFile} {name : List Char}
    {ln : Option Nat} {rc : Bool} :
    ∀ m ∈ collectMatches files name ln rc, m.1.readable = true := by
  unfold collectMatches
  suffices h : ∀ (acc : List (SrcFile × List Char)),
      (∀ m ∈ acc, m.1.readable = true) →
      ∀ m ∈ files.foldl (fun acc f =>
        match extractFromFile f name ln rc with
        | .error .unreadable => acc
        | .error _ => acc
        | .ok none => acc
        | .ok (some r) => acc ++ [(f, r)]) acc, m.1.readable = true by
    exact h [] (by simp)
  induction files with
  | nil => intro acc hacc m hm; exact hacc m (by simpa using hm)
  | cons f fs ih =>
    intro acc hacc m hm
    rw [List.foldl_cons] at hm
    refine ih _ ?_ m hm
    intro m' hm'
    cases hef : extractFromFile f name ln rc with
    | error e =>
      cases e with
      | notFound => rw [hef] at hm'; exact hacc m' hm'
      | unreadable => rw [hef] at hm'; exact hacc m' hm'
    | ok r =>
      cases r with
      | none => rw [hef] at hm'; exact hacc m' hm'
      | some code =>
        rw [hef] at hm'
        simp only [List.mem_append, List.mem_singleton] at hm'
        rcases hm' with hm' | hm'
        · exact hacc m' hm'
        · have hread : f.readable = true := by
            by_contra hr
            unfold extractFromFile at hef
            simp only [Bool.not_eq_true] at hr
            rw [hr] at hef
            simp at hef
          rw [hm']
          exact hread

theorem verifyFirst_first {name : List Char} {n : Nat} :
    ∀ (pre : List (SrcFile × List Char)) (m : SrcFile × List Char)
      (post : List (SrcFile × List Char)),
    (∀ x ∈ pre, x.1.readable = true) → m.1.readable = true →
    (∀ x ∈ pre, verifyLines (splitLines x.1.content) name n = false) →
    verifyLines (splitLines m.1.content) name n = true →
    verifyFirst (pre ++ m :: post) name n = .ok (some m.2) := by
  intro pre
  induction pre with
  | nil =>
    intro m post _ hr _ hv
    obtain ⟨f, code⟩ := m
    have hr' : f.readable = true := hr
    have hv' : verifyLines (splitLines f.content) name n = true := hv
    rw [List.nil_append]
    unfold verifyFirst verifyLineNumber
    rw [hr']
    show (do
      let v ← Except.ok (verifyLines (splitLines f.content) name n)
      if v = true then Except.ok (some code)
      else verifyFirst post name n) = Except.ok (some code)
    rw [hv']
    rfl
  | cons hd pre' ih =>
    intro m post hrd hr hfail hv
    obtain ⟨f, code⟩ := hd
    have hrf : f.readable = true := hrd (f, code) (List.mem_cons_self _ _)
    have hvf : verifyLines (splitLines f.content) name n = false :=
      hfail (f, code) (List.mem_cons_self _ _)
    rw [List.cons_append]
    unfold verifyFirst verifyLineNumber
    rw [hrf]
    show (do
      let v ← Except.ok (verifyLines (splitLines f.content) name n)
      if v = true then Except.ok (some code)
      else verifyFirst (pre' ++ m :: post) name n) = Except.ok (some m.2)
    rw [hvf]
    show verifyFirst (pre' ++ m :: post) name n = Except.ok (some m.2)
    exact ih m post (fun x hx => hrd x (List.mem_cons_of_mem _ hx)) hr
      (fun x hx => hfail x (List.mem_cons_of_mem _ hx)) hv

theorem verifyFirst_all_fail {name : List Char} {n : Nat} :
    ∀ (ms : List (SrcFile × List Char)),
    (∀ m ∈ ms, m.1.readable = true) →
    (∀ m ∈ ms, verifyLines (splitLines m.1.content) name n = false) →
    verifyFirst ms name n = .ok none := by
  intro ms
  induction ms with
  | nil => intro _ _; rfl
  | cons hd rest ih =>
    intro hrd hfail
    obtain ⟨f, code⟩ := hd
    have hrf : f.readable = true := hrd (f, code) (List.mem_cons_self _ _)
    have hvf : verifyLines (splitLines f.content) name n = false :=
      hfail (f, code) (List.mem_cons_self _ _)
    unfold verifyFirst verifyLineNumber
    rw [hrf]
    show (do
      let v ← Except.ok (verifyLines (splitLines f.content) name n)
      if v = true then Except.ok (some code)
      else verifyFirst rest name n) = Except.ok none
    rw [hvf]
    show verifyFirst rest name n = Except.ok none
    exact ih (fun x hx => hrd x (List.mem_cons_of_mem _ hx))
      (fun x hx => hfail x (List.mem_cons_of_mem _ hx))

/-- C3 (amended): the verification window of `_verify_line_number` is
the 0-BASED index range `max(0, ln - 3) .. min(len, ln + 3) - 1`, i.e.
the 1-based lines `ln - 2 .. ln + 3` — asymmetric, NOT the claimed
symmetric `ln - 3 .. ln + 3`.  When a tree-wide extraction has at least
two matches and a truthy line number was supplied, the returned code is
that of the FIRST match whose file verifies under that window (every
earlier match failing verification); and when no match's file verifies,
that of the first match. -/
theorem tree_wide_line_disambiguation :
    (∀ (lines : List (List Char)) (name : List Char) (ln : Nat),
      verifyLines lines name ln = true ↔
        ∃ i, ln - 3 ≤ i ∧ i < min lines.length (ln + 3) ∧
          isFunctionDeclaration lines i name = true) ∧
    (∀ (fs : List SrcFile) (name : List Char) (n : Nat) (rc : Bool)
      (m0 m1 : SrcFile × List Char) (mrest : List (SrcFile × List Char))
      (pre : List (SrcFile × List Char)) (m : SrcFile × List Char)
      (post : List (SrcFile × List Char)),
      collectMatches (getAllSourceFiles fs) name (some n) rc =
        m0 :: m1 :: mrest →
      n ≠ 0 →
      m0 :: m1 :: mrest = pre ++ m :: post →
      (∀ x ∈ pre, verifyLines (splitLines x.1.content) name n = false) →
      verifyLines (splitLines m.1.content) name n = true →
      extractFromDirectory fs name (some n) rc = .ok (some m.2)) ∧
    (∀ (fs : List SrcFile) (name : List Char) (n : Nat) (rc : Bool)
      (m0 m1 : SrcFile × List Char) (mrest : List (SrcFile × List Char)),
      collectMatches (getAllSourceFiles fs) name (some n) rc =
        m0 :: m1 :: mrest →
      n ≠ 0 →
      (∀ m ∈ m0 :: m1 :: mrest,
        verifyLines (splitLines m.1.content) name n = false) →
      extractFromDirectory fs name (some n) rc = .ok (some m0.2)) := by
  refine ⟨?_, ?_, ?_⟩
  · intro lines name ln
    unfold verifyLines
    rw [List.any_eq_true]
    constructor
    · rintro ⟨i, him, hp⟩
      rw [List.mem_range'_1] at him
      exact ⟨i, by omega, by omega, hp⟩
    · rintro ⟨i, h1, h2, hp⟩
      refine ⟨i, ?_, hp⟩
      rw [List.mem_range'_1]
      omega
  · intro fs name n rc m0 m1 mrest pre m post hms hn hdec hfail hv
    have hread : ∀ x ∈ m0 :: m1 :: mrest, x.1.readable = true := by
      intro x hx
      rw [← hms] at hx
      exact collectMatches_readable x hx
    have hreadpre : ∀ x ∈ pre, x.1.readable = true := fun x hx =>
      hread x (by rw [hdec]; exact List.mem_append.mpr (Or.inl hx))
    have hreadm : m.1.readable = true :=
      hread m (by
        rw [hdec]
        exact List.mem_append.mpr (Or.inr (List.mem_cons_self _ _)))
    have hvf := verifyFirst_first pre m post hreadpre hreadm hfail hv
    rw [← hdec] at hvf
    unfold extractFromDirectory
    rw [hms]
    simp only [if_pos hn]
    rw [hvf]
    rfl
  · intro fs name n rc m0 m1 mrest hms hn hfail
    have hread : ∀ x ∈ m0 :: m1 :: mrest, x.1.readable = true := by
      intro x hx
      rw [← hms] at hx
      exact collectMatches_readable x hx
    have hvf := verifyFirst_all_fail (m0 :: m1 :: mrest) hread hfail
    unfold extractFromDirectory
    rw [hms]
    simp only [if_pos hn]
    rw [hvf]
    rfl

/-- C3 witness: with `line_number = 2`, in a tree where `a.c` defines
`foo` at 1-based line 1 (which verifies: 0-based window `0 .. 4`) and
`b.c` at line 10 (which does not), the first verifying match `a.c` is
returned; and in a tree where both files define `foo` at line 10 (so
neither verifies) the first match is returned.  The window
characterization is instantiated at `a.c`. -/
theorem tree_wide_line_disambiguation_witness :
    extractFromDirectory
      [ ⟨[], "a.c", true, "void foo() \x7b\n  a();\n\x7d".data⟩,
        ⟨[], "b.c", true,
          "\n\n\n\n\n\n\n\n\nvoid foo() \x7b\n  b();\n\x7d".data⟩ ]
      "foo".data (some 2) false = .ok (some "void foo() \x7b\n  a();\n\x7d".data) ∧
    extractFromDirectory
      [ ⟨[], "a.c", true,
          "\n\n\n\n\n\n\n\n\nvoid foo() \x7b\n  a();\n\x7d".data⟩,
        ⟨[], "b.c", true,
          "\n\n\n\n\n\n\n\n\nvoid foo() \x7b\n  b();\n\x7d".data⟩ ]
      "foo".data (some 2) false = .ok (some "void foo() \x7b\n  a();\n\x7d".data) ∧
    verifyLines (splitLines "void foo() \x7b\n  a();\n\x7d".data)
      "foo".data 2 = true := by
  have hver : verifyLines (splitLines "void foo() \x7b\n  a();\n\x7d".data)
      "foo".data 2 = true := by
    refine (tree_wide_line_disambiguation.1
      (splitLines "void foo() \x7b\n  a();\n\x7d".data) "foo".data 2).mpr
      ⟨0, by omega, by decide, by decide⟩
  refine ⟨?_, ?_, hver⟩
  · exact tree_wide_line_disambiguation.2.1
      [ ⟨[], "a.c", true, "void foo() \x7b\n  a();\n\x7d".data⟩,
        ⟨[], "b.c", true,
          "\n\n\n\n\n\n\n\n\nvoid foo() \x7b\n  b();\n\x7d".data⟩ ]
      "foo".data 2 false
      (⟨⟨[], "a.c", true, "void foo() \x7b\n  a();\n\x7d".data⟩,
          "void foo() \x7b\n  a();\n\x7d".data⟩)
      (⟨⟨[], "b.c", true,
          "\n\n\n\n\n\n\n\n\nvoid foo() \x7b\n  b();\n\x7d".data⟩,
          "void foo() \x7b\n  b();\n\x7d".data⟩)
      [] []
      (⟨⟨[], "a.c", true, "void foo() \x7b\n  a();\n\x7d".data⟩,
          "void foo() \x7b\n  a();\n\x7d".data⟩)
      [ ⟨⟨[], "b.c", true,
          "\n\n\n\n\n\n\n\n\nvoid foo() \x7b\n  b();\n\x7d".data⟩,
          "void foo() \x7b\n  b();\n\x7d".data⟩ ]
      (by rfl) (by decide) (by rfl) (by simp) hver
  · exact tree_wide_line_disambiguation.2.2
      [ ⟨[], "a.c", true,
          "\n\n\n\n\n\n\n\n\nvoid foo() \x7b\n  a();\n\x7d".data⟩,
        ⟨[], "b.c", true,
          "\n\n\n\n\n\n\n\n\nvoid foo() \x7b\n  b();\n\x7d".data⟩ ]
      "foo".data 2 false
      (⟨⟨[], "a.c", true,
          "\n\n\n\n\n\n\n\n\nvoid foo() \x7b\n  a();\n\x7d".data⟩,
          "void foo() \x7b\n  a();\n\x7d".data⟩)
      (⟨⟨[], "b.c", true,
          "\n\n\n\n\n\n\n\n\nvoid foo() \x7b\n  b();\n\x7d".data⟩,
          "void foo() \x7b\n  b();\n\x7d".data⟩)
      [] (by rfl) (by decide) (by decide)

/-- C8 (amended): `extract_function` with an explicit file name locates
the file anywhere under the source root (the first file of that base
name in traversal order) and raises `FileNotFoundError` when no file of
that name exists anywhere; `list_all_functions`, by contrast, resolves
the name only as a DIRECT child of the root and returns an empty list
(no error) when that direct path does not exist. -/
theorem explicit_file_resolution :
    (∀ (fs : List SrcFile) (name : List Char) (fn : String)
      (ln : Option Nat) (rc : Bool),
      (∀ f ∈ fs, f.base ≠ fn) →
      extractFunction fs name (some fn) ln rc = .error .notFound) ∧
    (∀ (fs : List SrcFile) (name : List Char) (fn : String)
      (ln : Option Nat) (rc : Bool) (f : SrcFile),
      fs.find? (fun g => g.base = fn) = some f →
      extractFunction fs name (some fn) ln rc =
        extractFromFile f name ln rc) ∧
    (∀ (fs : List SrcFile) (fn : String) (rc : Bool),
      (∀ f ∈ fs, ¬(f.dirs = [] ∧ f.base = fn)) →
      listAllFunctions fs (some fn) rc = .ok []) := by
  refine ⟨?_, ?_, ?_⟩
  · intro fs name fn ln rc h
    have hfind : fs.find? (fun g => decide (g.base = fn)) = none := by
      rw [List.find?_eq_none]
      intro f hf
      simp [h f hf]
    simp only [extractFunction, hfind]
  · intro fs name fn ln rc f hf
    simp only [extractFunction, hf]
  · intro fs fn rc h
    have hfind : fs.find? (fun g => decide (g.dirs = [] ∧ g.base = fn)) = none := by
      rw [List.find?_eq_none]
      intro f hf
      simpa using h f hf
    simp only [listAllFunctions, hfind]

/-- C8 witness: a file in a subdirectory is found by `extract_function`,
a missing name raises NotFound there, and `list_all_functions` gives the
empty list for the same tree. -/
theorem explicit_file_resolution_witness :
    extractFunction [ ⟨[ "d" ], "x.c", true, "void f() \x7b\x7d".data⟩ ]
      "f".data (some "y.c") none false = .error .notFound ∧
    extractFunction [ ⟨[ "d" ], "x.c", true, "void f() \x7b\x7d".data⟩ ]
      "f".data (some "x.c") none false =
      extractFromFile ⟨[ "d" ], "x.c", true, "void f() \x7b\x7d".data⟩
        "f".data none false ∧
    listAllFunctions [ ⟨[ "d" ], "x.c", true, "void f() \x7b\x7d".data⟩ ]
      (some "x.c") false = .ok [] :=
  ⟨explicit_file_resolution.1
      [ ⟨[ "d" ], "x.c", true, "void f() \x7b\x7d".data⟩ ]
      "f".data "y.c" none false (by decide),
    explicit_file_resolution.2.1
      [ ⟨[ "d" ], "x.c", true, "void f() \x7b\x7d".data⟩ ]
      "f".data "x.c" none false _ (by rfl),
    explicit_file_resolution.2.2
      [ ⟨[ "d" ], "x.c", true, "void f() \x7b\x7d".data⟩ ]
      "x.c" false (by decide)⟩

theorem getAllSourceFiles_filter (fs : List SrcFile) :
    getAllSourceFiles (fs.filter (fun f => f.readable)) =
      (getAllSourceFiles fs).filter (fun f => f.readable) := by
  unfold getAllSourceFiles
  rw [List.filter_filter, List.filter_filter]
  congr 1
  funext f
  exact Bool.and_comm _ _

theorem foldl_skip_unreadable {β : Type} (g : β → SrcFile → β)
    (hg : ∀ (acc : β) (f : SrcFile), f.readable = false → g acc f = acc) :
    ∀ (files : List SrcFile) (acc : β),
    files.foldl g acc = (files.filter (fun f => f.readable)).foldl g acc := by
  intro files
  induction files with
  | nil => intro acc; rfl
  | cons f fs ih =>
    intro acc
    by_cases hr : f.readable
    · rw [List.filter_cons, if_pos (by simpa using hr)]
      rw [List.foldl_cons, List.foldl_cons]
      exact ih _
    · have hrf : f.readable = false := by simpa using hr
      rw [List.filter_cons, if_neg (by simp [hrf])]
      rw [List.foldl_cons, hg acc f hrf]
      exact ih _

theorem collectMatches_skip_unreadable (files : List SrcFile)
    (name : List Char) (ln : Option Nat) (rc : Bool) :
    collectMatches files name ln rc =
      collectMatches (files.filter (fun f => f.readable)) name ln rc := by
  unfold collectMatches
  refine foldl_skip_unreadable _ ?_ files []
  intro acc f hrf
  unfold extractFromFile
  rw [hrf]
  rfl

/-- C9: during tree-wide scans (`extract_function` with no file name,
`list_all_functions`, `find_function_locations`) an unreadable file
contributes zero results and does not abort the scan — each operation
computes the same value as on the tree with the unreadable files removed
— while a single-file lookup of an unreadable file raises the error to
the caller (both in `extract_function`, whose walk finds the file
anywhere, and in the direct-child lookup of `list_all_functions`). -/
theorem unreadable_skip_and_raise :
    (∀ (fs : List SrcFile) (name : List Char) (ln : Option Nat) (rc : Bool),
      extractFromDirectory fs name ln rc =
        extractFromDirectory (fs.filter (fun f => f.readable)) name ln rc) ∧
    (∀ (fs : List SrcFile) (rc : Bool),
      listAllFunctions fs none rc =
        listAllFunctions (fs.filter (fun f => f.readable)) none rc) ∧
    (∀ (fs : List SrcFile) (name : List Char),
      findFunctionLocations fs name =
        findFunctionLocations (fs.filter (fun f => f.readable)) name) ∧
    (∀ (fs : List SrcFile) (name : List Char) (fn : String)
      (ln : Option Nat) (rc : Bool) (f : SrcFile),
      fs.find? (fun g => g.base = fn) = some f → f.readable = false →
      extractFunction fs name (some fn) ln rc = .error .unreadable) ∧
    (∀ (fs : List SrcFile) (fn : String) (rc : Bool) (f : SrcFile),
      fs.find? (fun g => g.dirs = [] ∧ g.base = fn) = some f →
      f.readable = false →
      listAllFunctions fs (some fn) rc = .error .unreadable) := by
  refine ⟨?_, ?_, ?_, ?_, ?_⟩
  · intro fs name ln rc
    unfold extractFromDirectory
    rw [getAllSourceFiles_filter,
      ← collectMatches_skip_unreadable (getAllSourceFiles fs) name ln rc]
  · intro fs rc
    unfold listAllFunctions
    rw [getAllSourceFiles_filter,
      ← foldl_skip_unreadable _ (fun acc f hrf => by rw [hrf]; rfl)
        (getAllSourceFiles fs) []]
  · intro fs name
    unfold findFunctionLocations
    rw [getAllSourceFiles_filter,
      ← foldl_skip_unreadable _ (fun acc f hrf => by rw [hrf]; rfl)
        (getAllSourceFiles fs) []]
  · intro fs name fn ln rc f hf hrf
    simp only [extractFunction, hf]
    unfold extractFromFile
    rw [hrf]
    rfl
  · intro fs fn rc f hf hrf
    simp only [listAllFunctions, hf, hrf]
    rfl

/-- C9 witness: with an unreadable `u.c` and a readable `r.c` both
defining `foo`, the tree-wide extraction equals the one on the tree
without `u.c`, and naming `u.c` explicitly raises the error — both in
`extract_function` and in the direct-child branch of
`list_all_functions`. -/
theorem unreadable_skip_and_raise_witness :
    extractFromDirectory
      [ ⟨[], "u.c", false, "void foo() \x7b\x7d".data⟩,
        ⟨[], "r.c", true, "void foo() \x7b\x7d".data⟩ ]
      "foo".data none false =
      extractFromDirectory
        ([ ⟨[], "u.c", false, "void foo() \x7b\x7d".data⟩,
           ⟨[], "r.c", true, "void foo() \x7b\x7d".data⟩ ].filter
          (fun f => f.readable)) "foo".data none false ∧
    extractFunction
      [ ⟨[], "u.c", false, "void foo() \x7b\x7d".data⟩,
        ⟨[], "r.c", true, "void foo() \x7b\x7d".data⟩ ]
      "foo".data (some "u.c") none false = .error .unreadable ∧
    listAllFunctions
      [ ⟨[], "u.c", false, "void foo() \x7b\x7d".data⟩,
        ⟨[], "r.c", true, "void foo() \x7b\x7d".data⟩ ]
      (some "u.c") false = .error .unreadable :=
  ⟨unreadable_skip_and_raise.1
      [ ⟨[], "u.c", false, "void foo() \x7b\x7d".data⟩,
        ⟨[], "r.c", true, "void foo() \x7b\x7d".data⟩ ]
      "foo".data none false,
    unreadable_skip_and_raise.2.2.2.1
      [ ⟨[], "u.c", false, "void foo() \x7b\x7d".data⟩,
        ⟨[], "r.c", true, "void foo() \x7b\x7d".data⟩ ]
      "foo".data "u.c" none false
      ⟨[], "u.c", false, "void foo() \x7b\x7d".data⟩ (by rfl) (by rfl),
    unreadable_skip_and_raise.2.2.2.2
      [ ⟨[], "u.c", false, "void foo() \x7b\x7d".data⟩,
        ⟨[], "r.c", true, "void foo() \x7b\x7d".data⟩ ]
      "u.c" false
      ⟨[], "u.c", false, "void foo() \x7b\x7d".data⟩ (by rfl) (by rfl)⟩

theorem isPySpace_eq_false_of_isWordChar {c : Char}
    (h : isWordChar c = true) : isPySpace c = false := by
  by_contra hsp
  simp only [Bool.not_eq_false] at hsp
  unfold isPySpace at hsp
  simp only [decide_eq_true_eq] at hsp
  rcases hsp with h1 | h1 | h1 | h1 | h1 | h1 <;>
    (subst h1; simp [isWordChar] at h)

theorem fnPatternAt_self (n0 : Char) (nt rest1 : List Char) :
    fnPatternAt (n0 :: nt) ((n0 :: nt) ++ ' ' :: '(' :: rest1) = true := by
  unfold fnPatternAt
  rw [stripPre_self]
  simp [List.dropWhile, isPySpace]

theorem fnSearchAux_append (n0 : Char) (nt : List Char) :
    ∀ (u v : List Char) (prev : Option Char),
    fnPatternAt (n0 :: nt) v = true →
    boundaryB (match u.getLast? with
      | some p => some p
      | none => prev) n0 = true →
    fnSearchAux n0 (n0 :: nt) prev (u ++ v) = true := by
  intro u
  induction u with
  | nil =>
    intro v prev hpat hb
    simp only [List.getLast?_nil] at hb
    unfold fnSearchAux
    simp only [List.nil_append]
    rw [hb, hpat]
    simp
  | cons c u' ih =>
    intro v prev hpat hb
    unfold fnSearchAux
    simp only [List.cons_append]
    rw [Bool.or_eq_true]
    refine Or.inr (ih v (some c) hpat ?_)
    rw [List.getLast?_cons] at hb
    cases hgl : u'.getLast? with
    | none =>
      rw [hgl] at hb
      simpa using hb
    | some p =>
      rw [hgl] at hb
      simpa using hb

/-- C6: a two-line signature — return type and function name on line N
(the stripped line is `pre ++ name` with `name` a nonempty word and
`pre` empty or ending in a non-word character), no `(` on line N, and
the parameter list opening `(` on line N+1 — is detected by the
Boundary Detector exactly at line N: accepted at N (via the one-line
lookahead concatenating line N with line N+1) and rejected at N+1
(hypotheses: the signature fragment carries no quote characters, `pre`
does not start with `#`, and the name does not occur on the parameter
line). -/
theorem two_line_signature (lines : List (List Char)) (N : Nat)
    (pre rest1 : List Char) (n0 : Char) (nt : List Char)
    (h1 : N + 1 < lines.length)
    (h2 : pyStrip (getLine lines N) = pre ++ n0 :: nt)
    (h4 : ∀ c ∈ n0 :: nt, isWordChar c = true)
    (h5 : ∀ p, pre.getLast? = some p → isWordChar p = false)
    (h6 : '(' ∉ pre)
    (h7 : pyStrip (getLine lines (N + 1)) = '(' :: rest1)
    (h8 : '"' ∉ pre ++ n0 :: (nt ++ ' ' :: '(' :: rest1))
    (h9 : '\'' ∉ pre ++ n0 :: (nt ++ ' ' :: '(' :: rest1))
    (h10 : ∀ c, pre.head? = some c → c ≠ '#')
    (h11 : containsSub (n0 :: nt) ('(' :: rest1) = false) :
    isFunctionDeclaration lines N (n0 :: nt) = true ∧
    isFunctionDeclaration lines (N + 1) (n0 :: nt) = false := by
  have hnospace : ∀ c ∈ n0 :: nt, isPySpace c = false := fun c hc =>
    isPySpace_eq_false_of_isWordChar (h4 c hc)
  have hlast : (pre ++ n0 :: nt).getLast? = (n0 :: nt).getLast? := by
    rw [List.getLast?_append]
    cases hgl : (n0 :: nt).getLast? with
    | none =>
      have := List.getLast?_isSome (l := n0 :: nt)
      rw [hgl] at this
      simp at this
    | some x => rfl
  have hlast_word : ∀ x, (n0 :: nt).getLast? = some x →
      isWordChar x = true := by
    intro x hx
    exact h4 x (List.mem_of_mem_getLast? hx)
  have hnotsemi : ¬ (pre ++ n0 :: nt).getLast? = some ';' := by
    rw [hlast]
    intro hx
    have := hlast_word ';' hx
    simp [isWordChar] at this
  have hnp : '(' ∉ pre ++ n0 :: nt := by
    simp only [List.mem_append, List.mem_cons]
    rintro (hp | hp | hp)
    · exact h6 hp
    · have := h4 '(' (by rw [hp]; exact List.mem_cons_self _ _)
      simp [isWordChar] at this
    · have := h4 '(' (List.mem_cons_of_mem _ hp)
      simp [isWordChar] at this
  have hnoparen : (pre ++ n0 :: nt).contains '(' = false := by
    have : (pre ++ n0 :: nt).contains '(' = List.elem '(' (pre ++ n0 :: nt) :=
      rfl
    rw [this, List.elem_eq_mem]
    simpa using hnp
  constructor
  · -- accepted at line N
    have hsearch : fnSearch (n0 :: nt)
        (pre ++ n0 :: (nt ++ ' ' :: '(' :: rest1)) = true := by
      show fnSearchAux n0 (n0 :: nt) none
        (pre ++ n0 :: (nt ++ ' ' :: '(' :: rest1)) = true
      have hbnd : boundaryB (match pre.getLast? with
          | some p => some p
          | none => (none : Option Char)) n0 = true := by
        cases hgl : pre.getLast? with
        | none =>
          simpa [boundaryB] using h4 n0 (List.mem_cons_self _ _)
        | some p =>
          have hp := h5 p hgl
          have hn := h4 n0 (List.mem_cons_self _ _)
          simp [boundaryB, hp, hn]
      exact fnSearchAux_append n0 nt pre ((n0 :: nt) ++ ' ' :: '(' :: rest1)
        none (fnPatternAt_self n0 nt rest1) hbnd
    have hinside : isInsideStringOrMacroChk
        (pre ++ n0 :: (nt ++ ' ' :: '(' :: rest1)) (n0 :: nt) = false := by
      unfold isInsideStringOrMacroChk
      have hq : containsSub ('"' :: n0 :: nt)
          (pre ++ n0 :: (nt ++ ' ' :: '(' :: rest1)) = false := by
        cases hcs : containsSub ('"' :: n0 :: nt)
            (pre ++ n0 :: (nt ++ ' ' :: '(' :: rest1)) with
        | false => rfl
        | true => exact absurd (mem_of_containsSub hcs) h8
      have hq' : containsSub ('\'' :: n0 :: nt)
          (pre ++ n0 :: (nt ++ ' ' :: '(' :: rest1)) = false := by
        cases hcs : containsSub ('\'' :: n0 :: nt)
            (pre ++ n0 :: (nt ++ ' ' :: '(' :: rest1)) with
        | false => rfl
        | true => exact absurd (mem_of_containsSub hcs) h9
      have hhash : ¬ (pyStrip
          (pre ++ n0 :: (nt ++ ' ' :: '(' :: rest1))).head? = some '#' := by
        rw [pyStrip_head]
        cases hpre : pre with
        | nil =>
          have hn0 : isPySpace n0 = false := hnospace n0 (List.mem_cons_self _ _)
          intro hcon
          simp only [hpre, List.nil_append, List.cons_append,
            List.dropWhile_cons, hn0, Bool.false_eq_true, if_false,
            List.head?_cons, Option.some.injEq] at hcon
          have := h4 n0 (List.mem_cons_self _ _)
          rw [hcon] at this
          simp [isWordChar] at this
        | cons p pt =>
          have hpns : isPySpace p = false := by
            have hps := pyStrip_head (getLine lines N)
            rw [h2] at hps
            have hh : ((getLine lines N).dropWhile isPySpace).head? = some p := by
              rw [← hps, hpre]; rfl
            exact head?_dropWhile_false hh
          have hpd : p ≠ '#' := h10 p (by rw [hpre]; rfl)
          intro hcon
          simp only [hpre, List.cons_append, List.dropWhile_cons, hpns,
            Bool.false_eq_true, if_false, List.head?_cons,
            Option.some.injEq] at hcon
          exact hpd hcon
      simp [hq, hq', hhash]
    unfold isFunctionDeclaration
    rw [h2, h7]
    rw [if_neg (by simp)]
    rw [if_neg hnotsemi]
    by_cases hfirst : (fnSearch (n0 :: nt) (pre ++ n0 :: nt) &&
        !isInsideStringOrMacroChk (pre ++ n0 :: nt) (n0 :: nt)) = true
    · rw [if_pos hfirst]
    · rw [if_neg hfirst]
      rw [if_pos (by rw [hnoparen]; simp [h1])]
      have hnotsemi2 : ¬ (n0 :: nt).getLast? = some ';' := by
        rw [← hlast]; exact hnotsemi
      rw [if_pos (by simp [hsearch, hinside, hnotsemi, hnotsemi2])]
  · -- rejected at line N + 1
    unfold isFunctionDeclaration
    rw [h7]
    rw [if_neg (by simp)]
    by_cases hsemi : ('(' :: rest1).getLast? = some ';'
    · rw [if_pos hsemi]
    · rw [if_neg hsemi]
      have hfs : fnSearch (n0 :: nt) ('(' :: rest1) = false := by
        cases hcs : fnSearch (n0 :: nt) ('(' :: rest1) with
        | false => rfl
        | true => exact absurd (containsSub_of_fnSearch hcs) (by simp [h11])
      rw [if_neg (by simp [hfs])]
      rw [if_neg (by simp [List.elem_eq_mem])]

theorem braceGo_cons_open {c : Char} (rest : List Char)
    (hq : c = '"' ∨ c = '\'') :
    braceGo (c :: rest) false false none =
      braceGo rest true false (some c) := by
  cases rest with
  | nil => rcases hq with h | h <;> subst h <;> simp [braceGo]
  | cons r1 rrest => rcases hq with h | h <;> subst h <;> simp [braceGo]

theorem braceGo_cons_close {q : Char} (rest : List Char)
    (hq : q = '"' ∨ q = '\'') :
    braceGo (q :: rest) true false (some q) =
      braceGo rest false false none := by
  cases rest with
  | nil =>
    rcases hq with h | h <;> subst h <;> simp [braceGo]
  | cons r1 rrest =>
    rcases hq with h | h <;> subst h <;> simp [braceGo]

theorem braceGo_cons_str {q c : Char} (rest : List Char)
    (hc1 : ¬ c = q) (hc2 : ¬ c = '\\') :
    braceGo (c :: rest) true false (some q) =
      braceGo rest true false (some q) := by
  cases rest with
  | nil => simp [braceGo, hc1, hc2]
  | cons r1 rrest => simp [braceGo, hc1, hc2]

theorem braceGo_cons_normal {c : Char} (rest : List Char)
    (hq1 : ¬ c = '"') (hq2 : ¬ c = '\'') (hs : ¬ c = '/') :
    braceGo (c :: rest) false false none =
      (if c = '\x7b' then 1 else if c = '\x7d' then -1 else 0) +
        braceGo rest false false none := by
  cases rest with
  | nil => simp [braceGo, hq1, hq2, hs]
  | cons r1 rrest => simp [braceGo, hq1, hq2, hs]

theorem braceGo_slash_other {r1 : Char} (rrest : List Char)
    (h1 : ¬ r1 = '/') (h2 : ¬ r1 = '*') :
    braceGo ('/' :: r1 :: rrest) false false none =
      braceGo (r1 :: rrest) false false none := by
  simp [braceGo, h1, h2]

theorem braceGo_block_open (rrest : List Char) :
    braceGo ('/' :: '*' :: rrest) false false none =
      braceGo rrest false false none := by
  simp [braceGo]

theorem braceGo_line_comment (junk : List Char) :
    braceGo ('/' :: '/' :: junk) false false none = 0 := by
  simp [braceGo]

theorem braceGo_str_backslash {q r1 : Char} (rrest : List Char) :
    braceGo ('\\' :: r1 :: rrest) true false (some q) =
      braceGo rrest true false (some q) := by
  simp [braceGo]

/-- Compositionality of the brace counter over a cleanly scanned prefix:
if scanning `p` completes boundary-independently and returns to code
state, the count of a concatenation splits. -/
theorem braceGo_append :
    ∀ (n : Nat) (p : List Char), p.length = n →
    ((cleanScan none p = true → ∀ t,
      braceGo (p ++ t) false false none =
        braceGo p false false none + braceGo t false false none) ∧
     (∀ q, q = '"' ∨ q = '\'' → cleanScan (some q) p = true → ∀ t,
      braceGo (p ++ t) true false (some q) =
        braceGo p true false (some q) + braceGo t false false none)) := by
  intro n
  induction n using Nat.strong_induction_on with
  | _ n ih =>
    intro p hlen
    cases p with
    | nil =>
      constructor
      · intro _ t
        simp [braceGo]
      · intro q _ hq
        simp [cleanScan] at hq
    | cons c rest =>
      cases rest with
      | nil =>
        constructor
        · intro hcl t
          by_cases hq1 : c = '"'
          · subst hq1; simp [cleanScan] at hcl
          · by_cases hq2 : c = '\''
            · subst hq2; simp [cleanScan] at hcl
            · by_cases hs : c = '/'
              · subst hs; simp [cleanScan] at hcl
              · cases t with
                | nil => simp [braceGo]
                | cons t0 t1 =>
                  rw [List.cons_append, List.nil_append]
                  rw [braceGo_cons_normal (t0 :: t1) hq1 hq2 hs,
                    braceGo_cons_normal [] hq1 hq2 hs]
                  simp [braceGo]
                  try omega
        · intro q hqd hcl t
          by_cases hb : c = '\\'
          · subst hb; simp [cleanScan] at hcl
          · by_cases hcq : c = q
            · subst hcq
              cases t with
              | nil => simp [braceGo]
              | cons t0 t1 =>
                rw [List.cons_append, List.nil_append]
                rw [braceGo_cons_close (t0 :: t1) hqd,
                  braceGo_cons_close [] hqd]
                simp [braceGo]
            · simp [cleanScan, hb, hcq] at hcl
      | cons r1 rrest =>
        have hlen1 : (r1 :: rrest).length < n := by
          simp only [List.length_cons] at hlen ⊢
          omega
        have hlen2 : rrest.length < n := by
          simp only [List.length_cons] at hlen ⊢
          omega
        constructor
        · intro hcl t
          by_cases hq1 : c = '"'
          · subst hq1
            have hcl' : cleanScan (some '"') (r1 :: rrest) = true := by
              simpa [cleanScan] using hcl
            rw [List.cons_append]
            rw [braceGo_cons_open ((r1 :: rrest) ++ t) (Or.inl rfl),
              braceGo_cons_open (r1 :: rrest) (Or.inl rfl)]
            exact ((ih _ hlen1 (r1 :: rrest) rfl).2 '"' (Or.inl rfl) hcl') t
          · by_cases hq2 : c = '\''
            · subst hq2
              have hcl' : cleanScan (some '\'') (r1 :: rrest) = true := by
                simpa [cleanScan] using hcl
              rw [List.cons_append]
              rw [braceGo_cons_open ((r1 :: rrest) ++ t) (Or.inr rfl),
                braceGo_cons_open (r1 :: rrest) (Or.inr rfl)]
              exact ((ih _ hlen1 (r1 :: rrest) rfl).2 '\'' (Or.inr rfl) hcl') t
            · by_cases hs : c = '/'
              · subst hs
                by_cases hr1 : r1 = '/'
                · subst hr1; simp [cleanScan] at hcl
                · by_cases hr2 : r1 = '*'
                  · subst hr2
                    have hcl' : cleanScan none rrest = true := by
                      simpa [cleanScan] using hcl
                    rw [List.cons_append, List.cons_append]
                    rw [braceGo_block_open (rrest ++ t),
                      braceGo_block_open rrest]
                    exact ((ih _ hlen2 rrest rfl).1 hcl') t
                  · have hcl' : cleanScan none (r1 :: rrest) = true := by
                      simpa [cleanScan, hr1, hr2] using hcl
                    rw [List.cons_append, List.cons_append]
                    rw [braceGo_slash_other (rrest ++ t) hr1 hr2,
                      braceGo_slash_other rrest hr1 hr2]
                    rw [← List.cons_append]
                    exact ((ih _ hlen1 (r1 :: rrest) rfl).1 hcl') t
              · have hcl' : cleanScan none (r1 :: rrest) = true := by
                  simpa [cleanScan, hq1, hq2, hs] using hcl
                rw [List.cons_append]
                rw [braceGo_cons_normal ((r1 :: rrest) ++ t) hq1 hq2 hs,
                  braceGo_cons_normal (r1 :: rrest) hq1 hq2 hs]
                rw [((ih _ hlen1 (r1 :: rrest) rfl).1 hcl') t]
                omega
        · intro q hqd hcl t
          by_cases hb : c = '\\'
          · subst hb
            have hcl' : cleanScan (some q) rrest = true := by
              simpa [cleanScan] using hcl
            rw [List.cons_append, List.cons_append]
            rw [braceGo_str_backslash (rrest ++ t),
              braceGo_str_backslash rrest]
            exact ((ih _ hlen2 rrest rfl).2 q hqd hcl') t
          · by_cases hcq : c = q
            · subst hcq
              have hcl' : cleanScan none (r1 :: rrest) = true := by
                simpa [cleanScan, hb] using hcl
              rw [List.cons_append]
              rw [braceGo_cons_close ((r1 :: rrest) ++ t) hqd,
                braceGo_cons_close (r1 :: rrest) hqd]
              exact ((ih _ hlen1 (r1 :: rrest) rfl).1 hcl') t
            · have hcl' : cleanScan (some q) (r1 :: rrest) = true := by
                simpa [cleanScan, hb, hcq] using hcl
              rw [List.cons_append]
              rw [braceGo_cons_str ((r1 :: rrest) ++ t) hcq hb,
                braceGo_cons_str (r1 :: rrest) hcq hb]
              exact ((ih _ hlen1 (r1 :: rrest) rfl).2 q hqd hcl') t

/-- The lexer skips a whole well-formed literal (no inner delimiter, no
escapes) without touching the count. -/
theorem braceGo_literal_skip {q : Char} (hqd : q = '"' ∨ q = '\'') :
    ∀ (cs : List Char), (∀ c ∈ cs, ¬ c = q ∧ ¬ c = '\\') → ∀ t,
    braceGo (cs ++ q :: t) true false (some q) =
      braceGo t false false none := by
  intro cs
  induction cs with
  | nil =>
    intro _ t
    rw [List.nil_append]
    exact braceGo_cons_close t hqd
  | cons c cs' ihc =>
    intro hmem t
    rw [List.cons_append]
    rw [braceGo_cons_str (cs' ++ q :: t)
      (hmem c (List.mem_cons_self _ _)).1 (hmem c (List.mem_cons_self _ _)).2]
    exact ihc (fun x hx => hmem x (List.mem_cons_of_mem _ hx)) t

/-- C1 (amended): for a line whose prefix `p` scans cleanly (ends in
code state, no break, no boundary-crossing lookahead), the brace count
is unchanged by inserting a well-formed string literal, a well-formed
character literal (content free of the delimiter and of escapes, braces
allowed), or a trailing line comment.  Braces inside BLOCK comments are
NOT ignored (see the counterexample): the scanner only skips the two
opener characters. -/
theorem countBraces_literal_comment_invariance
    (p cs junk t : List Char) (hp : cleanScan none p = true) :
    ((∀ c ∈ cs, ¬ c = '"' ∧ ¬ c = '\\') →
      countBracesInText (p ++ '"' :: (cs ++ '"' :: t)) =
        countBracesInText (p ++ t)) ∧
    ((∀ c ∈ cs, ¬ c = '\'' ∧ ¬ c = '\\') →
      countBracesInText (p ++ '\'' :: (cs ++ '\'' :: t)) =
        countBracesInText (p ++ t)) ∧
    countBracesInText (p ++ '/' :: '/' :: junk) = countBracesInText p := by
  have happ := (braceGo_append p.length p rfl).1 hp
  refine ⟨?_, ?_, ?_⟩
  · intro hmem
    unfold countBracesInText
    rw [happ ('"' :: (cs ++ '"' :: t)), happ t]
    rw [braceGo_cons_open (cs ++ '"' :: t) (Or.inl rfl)]
    rw [braceGo_literal_skip (Or.inl rfl) cs hmem t]
  · intro hmem
    unfold countBracesInText
    rw [happ ('\'' :: (cs ++ '\'' :: t)), happ t]
    rw [braceGo_cons_open (cs ++ '\'' :: t) (Or.inr rfl)]
    rw [braceGo_literal_skip (Or.inr rfl) cs hmem t]
  · unfold countBracesInText
    rw [happ ('/' :: '/' :: junk)]
    rw [braceGo_line_comment junk]
    omega

/-- C1 witness: the unbalanced closing braces inside the string literal
in `int n; "\x7d\x7d" \x7b` do not change the count relative to
`int n; \x7b`, and a trailing line comment containing a brace changes
nothing either. -/
theorem countBraces_literal_comment_invariance_witness :
    countBracesInText ("int n; ".data ++ '"' ::
        ("\x7d\x7d".data ++ '"' :: "\x7b".data)) =
      countBracesInText ("int n; ".data ++ "\x7b".data) ∧
    countBracesInText ("int n; ".data ++ '/' :: '/' :: " \x7d".data) =
      countBracesInText "int n; ".data := by
  obtain ⟨h1, _, h3⟩ := countBraces_literal_comment_invariance
    "int n; ".data "\x7d\x7d".data " \x7d".data "\x7b".data (by decide)
  exact ⟨h1 (by decide), h3⟩

theorem paramSearch_sound :
    ∀ {l ps ws r : List Char}, paramSearch l = some (ps, ws, r) →
    l = ps ++ ')' :: (ws ++ r) ∧
    (∀ c ∈ ps, ¬ c = '\x7b' ∧ ¬ c = ';') ∧
    (∀ c ∈ ws, isPySpace c = true) ∧
    ∃ r', r = '\x7b' :: r' := by
  intro l
  induction l with
  | nil => intro ps ws r h; simp [paramSearch] at h
  | cons c rest ih =>
    intro ps ws r h
    unfold paramSearch at h
    by_cases hb : c = '\x7b' ∨ c = ';'
    · rw [if_pos hb] at h; simp at h
    · rw [if_neg hb] at h
      push_neg at hb
      cases hps : paramSearch rest with
      | some trip =>
        obtain ⟨ps', ws', r'⟩ := trip
        rw [hps] at h
        simp only [Option.some.injEq, Prod.mk.injEq] at h
        obtain ⟨h1, h2, h3⟩ := h
        obtain ⟨hdec, hok, hws, hbr⟩ := ih hps
        subst h1; subst h2; subst h3
        refine ⟨by rw [List.cons_append, ← hdec], ?_, hws, hbr⟩
        intro x hx
        rcases List.mem_cons.mp hx with hx | hx
        · rw [hx]; exact ⟨hb.1, hb.2⟩
        · exact hok x hx
      | none =>
        rw [hps] at h
        by_cases hc : c = ')'
        · rw [if_pos hc] at h
          by_cases hh : (rest.dropWhile isPySpace).head? = some '\x7b'
          · rw [if_pos hh] at h
            simp only [Option.some.injEq, Prod.mk.injEq] at h
            obtain ⟨h1, h2, h3⟩ := h
            subst h1; subst h2; subst h3; subst hc
            refine ⟨by rw [List.takeWhile_append_dropWhile, List.nil_append],
              by simp, fun x hx => List.mem_takeWhile_imp hx, ?_⟩
            cases hdw : rest.dropWhile isPySpace with
            | nil => rw [hdw] at hh; simp at hh
            | cons d dr =>
              rw [hdw] at hh
              simp only [List.head?_cons, Option.some.injEq] at hh
              exact ⟨dr, by rw [hh]⟩
          · rw [if_neg hh] at h; simp at h
        · rw [if_neg hc] at h; simp at h

theorem trySpec1_suffix {kw s r : List Char} (h : trySpec1 kw s = some r) :
    r <:+ s := by
  unfold trySpec1 at h
  cases hsp : stripPre kw s with
  | none => rw [hsp] at h; simp at h
  | some r0 =>
    rw [hsp] at h
    have hdec := stripPre_eq_some hsp
    cases r0 with
    | nil => simp at h
    | cons a t =>
      simp only at h
      by_cases ha : isPySpace a
      · rw [if_pos ha] at h
        simp only [Option.some.injEq] at h
        rw [← h]
        refine (List.dropWhile_suffix _).trans ?_
        rw [hdec]
        exact List.suffix_append _ _
      · rw [if_neg ha] at h; simp at h

theorem trySpec_suffix {s r : List Char} (h : trySpec s = some r) :
    r <:+ s := by
  unfold trySpec at h
  cases h1 : trySpec1 "static".data s with
  | some x =>
    rw [h1] at h
    simp only [Option.orElse] at h
    cases h
    exact trySpec1_suffix h1
  | none =>
    rw [h1] at h
    simp only [Option.orElse] at h
    cases h2 : trySpec1 "extern".data s with
    | some x =>
      rw [h2] at h
      simp only at h
      cases h
      exact trySpec1_suffix h2
    | none =>
      rw [h2] at h
      simp only at h
      exact trySpec1_suffix h

theorem specRemsF_suffix :
    ∀ (fuel : Nat) (s rem : List Char), rem ∈ specRemsF fuel s → rem <:+ s := by
  intro fuel
  induction fuel with
  | zero =>
    intro s rem hm
    simp only [specRemsF, List.mem_singleton] at hm
    rw [hm]
  | succ fuel ih =>
    intro s rem hm
    unfold specRemsF at hm
    cases hts : trySpec s with
    | none =>
      rw [hts] at hm
      simp only [List.mem_singleton] at hm
      rw [hm]
    | some s' =>
      rw [hts] at hm
      rcases List.mem_append.mp hm with hm | hm
      · exact (ih s' rem hm).trans (trySpec_suffix hts)
      · simp only [List.mem_singleton] at hm
        rw [hm]

theorem parseSep_suffix {s r : List Char} (h : parseSep s = some r) :
    r <:+ s := by
  unfold parseSep at h
  by_cases h1 : (s.dropWhile isPySpace).length ≠
      ((s.dropWhile isPySpace).dropWhile (fun c => c = '*')).length
  · rw [if_pos h1] at h
    simp only [Option.some.injEq] at h
    rw [← h]
    exact ((List.dropWhile_suffix _).trans
      ((List.dropWhile_suffix _).trans (List.dropWhile_suffix _)))
  · rw [if_neg h1] at h
    by_cases h2 : s.length ≠ (s.dropWhile isPySpace).length
    · rw [if_pos h2] at h
      simp only [Option.some.injEq] at h
      rw [← h]
      exact List.dropWhile_suffix _
    · rw [if_neg h2] at h
      simp at h

theorem matchCore_sound {s nm ps ws rest : List Char}
    (h : matchCore s = some (nm, ps, ws, rest)) :
    (ps ++ ')' :: (ws ++ rest)) <:+ s ∧
    (∀ c ∈ ps, ¬ c = '\x7b' ∧ ¬ c = ';') ∧
    (∀ c ∈ ws, isPySpace c = true) ∧
    ∃ r', rest = '\x7b' :: r' := by
  unfold matchCore at h
  obtain ⟨rem, hrem, hin⟩ := List.exists_of_findSome?_eq_some h
  have hrs : rem <:+ s :=
    (specRemsF_suffix _ _ rem hrem).trans (List.dropWhile_suffix _)
  simp only at hin
  by_cases hrt : rem.takeWhile isWordChar = []
  · rw [if_pos hrt] at hin; simp at hin
  · rw [if_neg hrt] at hin
    cases hsep : parseSep (rem.dropWhile isWordChar) with
    | none => rw [hsep] at hin; simp at hin
    | some r2 =>
      rw [hsep] at hin
      simp only at hin
      by_cases hnm : r2.takeWhile isWordChar = []
      · rw [if_pos hnm] at hin; simp at hin
      · rw [if_neg hnm] at hin
        by_cases hh : (((r2.dropWhile isWordChar).dropWhile isPySpace).head?
            = some '(')
        · rw [if_pos hh] at hin
          cases hpar : paramSearch
              ((r2.dropWhile isWordChar).dropWhile isPySpace).tail with
          | none => rw [hpar] at hin; simp at hin
          | some trip =>
            obtain ⟨ps', ws', rest'⟩ := trip
            rw [hpar] at hin
            simp only [Option.some.injEq, Prod.mk.injEq] at hin
            obtain ⟨_, hps, hws, hrest⟩ := hin
            obtain ⟨hdec, hok, hwsp, hbr⟩ := paramSearch_sound hpar
            rw [← hps, ← hws, ← hrest]
            refine ⟨?_, hok, hwsp, hbr⟩
            have h5 : (ps' ++ ')' :: (ws' ++ rest')) <:+
                ((r2.dropWhile isWordChar).dropWhile isPySpace).tail := by
              rw [← hdec]
            have c1 : ((r2.dropWhile isWordChar).dropWhile isPySpace).tail <:+
                (r2.dropWhile isWordChar).dropWhile isPySpace :=
              List.tail_suffix _
            have c2 : (r2.dropWhile isWordChar).dropWhile isPySpace <:+
                r2.dropWhile isWordChar := List.dropWhile_suffix _
            have c3 : r2.dropWhile isWordChar <:+ r2 := List.dropWhile_suffix _
            have c4 : r2 <:+ rem.dropWhile isWordChar := parseSep_suffix hsep
            have c5 : rem.dropWhile isWordChar <:+ rem := List.dropWhile_suffix _
            exact h5.trans
              (c1.trans (c2.trans (c3.trans (c4.trans (c5.trans hrs)))))
        · rw [if_neg hh] at hin; simp at hin

theorem finditerF_succ_eq (fuel : Nat) (bol : Bool) (s : List Char) :
    finditerF (fuel + 1) bol s =
      match (if bol then matchCore s else none) with
      | some (nm, ps, ws, rest) =>
        (nm, ps) :: finditerF fuel (ws.getLast? = some '\n') rest
      | none =>
        match s with
        | [] => []
        | c :: rest0 =>
          if c = '\n' then
            match matchCore rest0 with
            | some (nm, ps, ws, rest) =>
              (nm, ps) :: finditerF fuel (ws.getLast? = some '\n') rest
            | none => finditerF fuel true rest0
          else finditerF fuel (c = '\n') rest0 := rfl

theorem finditerF_sound :
    ∀ (fuel : Nat) (bol : Bool) (s : List Char) (nm ps : List Char),
    (nm, ps) ∈ finditerF fuel bol s →
    (∀ c ∈ ps, ¬ c = '\x7b' ∧ ¬ c = ';') ∧
    ∃ ws rest, (∀ c ∈ ws, isPySpace c = true) ∧
      (ps ++ ')' :: (ws ++ '\x7b' :: rest)) <:+ s := by
  intro fuel
  induction fuel with
  | zero => intro bol s nm ps hm; simp [finditerF] at hm
  | succ fuel ih =>
    intro bol s nm ps hm
    rw [finditerF_succ_eq] at hm
    cases hbm : (if bol then matchCore s else none) with
    | some quad =>
      obtain ⟨nm', ps', ws', rest'⟩ := quad
      rw [hbm] at hm
      have hmc : matchCore s = some (nm', ps', ws', rest') := by
        cases bol with
        | false => simp at hbm
        | true => simpa using hbm
      obtain ⟨hsuf, hok, hwsp, r', hbr⟩ := matchCore_sound hmc
      rcases List.mem_cons.mp hm with hm | hm
      · simp only [Prod.mk.injEq] at hm
        obtain ⟨h1, h2⟩ := hm
        subst h1; subst h2
        refine ⟨hok, ws', r', hwsp, ?_⟩
        rw [hbr] at hsuf
        exact hsuf
      · obtain ⟨hok2, ws2, rest2, hw2, hs2⟩ := ih _ _ _ _ hm
        refine ⟨hok2, ws2, rest2, hw2, hs2.trans ?_⟩
        refine (List.suffix_append (ps' ++ ')' :: ws') rest').trans ?_
        have : (ps' ++ ')' :: ws') ++ rest' = ps' ++ ')' :: (ws' ++ rest') := by
          simp
        rw [this]
        exact hsuf
    | none =>
      rw [hbm] at hm
      cases s with
      | nil => simp at hm
      | cons c rest0 =>
        simp only at hm
        by_cases hc : c = '\n'
        · rw [if_pos hc] at hm
          cases hmc : matchCore rest0 with
          | some quad =>
            obtain ⟨nm', ps', ws', rest'⟩ := quad
            rw [hmc] at hm
            obtain ⟨hsuf, hok, hwsp, r', hbr⟩ := matchCore_sound hmc
            rcases List.mem_cons.mp hm with hm | hm
            · simp only [Prod.mk.injEq] at hm
              obtain ⟨h1, h2⟩ := hm
              subst h1; subst h2
              refine ⟨hok, ws', r', hwsp, ?_⟩
              rw [hbr] at hsuf
              exact hsuf.trans (List.suffix_cons c rest0)
            · obtain ⟨hok2, ws2, rest2, hw2, hs2⟩ := ih _ _ _ _ hm
              refine ⟨hok2, ws2, rest2, hw2, (hs2.trans ?_).trans
                (List.suffix_cons c rest0)⟩
              refine (List.suffix_append (ps' ++ ')' :: ws') rest').trans ?_
              have : (ps' ++ ')' :: ws') ++ rest' =
                  ps' ++ ')' :: (ws' ++ rest') := by
                simp
              rw [this]
              exact hsuf
          | none =>
            rw [hmc] at hm
            obtain ⟨hok2, ws2, rest2, hw2, hs2⟩ := ih _ _ _ _ hm
            exact ⟨hok2, ws2, rest2, hw2, hs2.trans (List.suffix_cons c rest0)⟩
        · rw [if_neg hc] at hm
          obtain ⟨hok2, ws2, rest2, hw2, hs2⟩ := ih _ _ _ _ hm
          exact ⟨hok2, ws2, rest2, hw2, hs2.trans (List.suffix_cons c rest0)⟩

set_option maxRecDepth 40000 in
/-- C7 (amended): every signature the Signature Lister returns has a
parameter group containing neither `\x7b` nor `;`, whose closing
parenthesis is followed — after whitespace only — by an opening brace
left unconsumed (the content decomposes around the match); only
signatures anchored at the start of a line (after optional whitespace
and storage specifiers) are found, and a file with three such
definitions and one forward declaration ending in `;` yields exactly the
three definitions, in order of appearance. -/
theorem signature_lister_sound :
    (∀ (content : List Char) (rc : Bool) (nm ps : List Char),
      (nm, ps) ∈ finditerF
        ((if rc then removeComments content else content).length + 1) true
        (if rc then removeComments content else content) →
      (∀ c ∈ ps, ¬ c = '\x7b' ∧ ¬ c = ';') ∧
      ∃ pre ws rest,
        (if rc then removeComments content else content) =
          pre ++ (ps ++ ')' :: (ws ++ '\x7b' :: rest)) ∧
        ∀ c ∈ ws, isPySpace c = true) ∧
    listFunctionsInFile
      ("int add(int a, int b) \x7b\n  return a + b;\n\x7d\nvoid decl(int x);\nstatic int mul(int a, int b) \x7b\n  return a * b;\n\x7d\nvoid nop() \x7b\n\x7d\n").data
      false =
      [ ("add".data, "add(int a, int b)".data),
        ("mul".data, "mul(int a, int b)".data),
        ("nop".data, "nop()".data) ] := by
  constructor
  · intro content rc nm ps hm
    obtain ⟨hok, ws, rest, hwsp, hsuf⟩ := finditerF_sound _ _ _ _ _ hm
    obtain ⟨pre, hpre⟩ := hsuf
    exact ⟨hok, pre, ws, rest, hpre.symm, hwsp⟩
  · rfl

/-- C7 witness: the single match of `void g(int y) \x7b\x7d` has a
parameter group free of braces and semicolons and sits immediately
before the opening brace, through the soundness theorem. -/
theorem signature_lister_sound_witness :
    (∀ c ∈ "int y".data, ¬ c = '\x7b' ∧ ¬ c = ';') ∧
    ∃ pre ws rest,
      (if false then removeComments "void g(int y) \x7b\x7d".data
        else "void g(int y) \x7b\x7d".data) =
        pre ++ ("int y".data ++ ')' :: (ws ++ '\x7b' :: rest)) ∧
      ∀ c ∈ ws, isPySpace c = true :=
  signature_lister_sound.1 "void g(int y) \x7b\x7d".data false
    "g".data "int y".data (by decide)

/-- C6 witness: the two-line signature `static long myfn` /
`(int a) \x7b` is accepted at line 1 and rejected at line 2, through the
two-line-signature theorem. -/
theorem two_line_signature_witness :
    isFunctionDeclaration
      [ "static long myfn".data, "(int a) \x7b".data ] 0
      ('m' :: "yfn".data) = true ∧
    isFunctionDeclaration
      [ "static long myfn".data, "(int a) \x7b".data ] 1
      ('m' :: "yfn".data) = false :=
  two_line_signature
    [ "static long myfn".data, "(int a) \x7b".data ] 0
    "static long ".data "int a) \x7b".data 'm' "yfn".data
    (by decide)
    (by decide)
    (by decide)
    (by
      intro p hp
      simp only [show ("static long ".data).getLast? = some ' ' from rfl,
        Option.some.injEq] at hp
      rw [← hp]
      decide)
    (by decide)
    (by decide)
    (by decide)
    (by decide)
    (by
      intro c hc
      simp only [show ("static long ".data).head? = some 's' from rfl,
        Option.some.injEq] at hc
      rw [← hc]
      decide)
    (by decide)

end CodeExtraction
